import Mathlib

/-!
# message-concealer: bit accessors, embedding and extraction

A shallow embedding of `bits.c`, `conceal.c` and `extract.c`.

* `unsigned char` values are natural numbers; every conversion to
  `unsigned char` (argument passing, return) is an explicit `% 256`.
* `int` counters that only count up from zero are natural numbers.  The
  products `rows * cols * 3 * numBits` that `extractMessage` and `main`
  compute in `int` are reduced to 32 bits with `wrapInt`; the size of a
  message in bits and the numbers of an image header are taken as they are.
* The channel buffer `image->color` is a list of bytes.  An access at an
  index outside the list is undefined behaviour in C; here it makes the
  operation fail (`none`, respectively `Outcome.outOfBounds`).
* A C string is the list of bytes stored in memory; the bytes that make up
  the string are those in front of the first zero byte (`cString`).
-/

namespace MessageConcealer

/-! ## Constants -/

/-- Modelled from the spec: the header `bits.h` is not part of the sources; it
declares `BITS_PER_BYTE`, the number of bits of a message byte.  The spec
says "for each of its 8 bits" and "reading 8 bits". -/
def BITS_PER_BYTE : Nat := 8

/-- Hex value to XOR with the mask so that it can be used to clear a bit
(`bits.c`, `MASKXOR`). -/
def MASKXOR : Nat := 0xFF

/-- Number of intensity values per pixel (`image.h`, `PIXEL_WIDTH`). -/
def PIXEL_WIDTH : Nat := 3

/-! ## Arithmetic in `int` -/

/-- The value that a result of `int` arithmetic has as a 32-bit `int`: results
outside the range from `-2^31` to `2^31 - 1` wrap around modulo `2^32`, as
they do in the compiled tools (C leaves the overflow undefined). -/
def wrapInt (x : Int) : Int :=
  (x + 2147483648) % 4294967296 - 2147483648

/-! ## bits.c -/

/-- The function `getBit` of `bits.c`: `mask = 1 << n; return ch & mask;`.
The argument is converted to `unsigned char`, the `int` result to `bool`. -/
def getBit (ch : Nat) (n : Nat) : Bool :=
  let mask := 1
  let mask := mask <<< n
  (ch % 256) &&& mask != 0

/-- The function `putBit` of `bits.c`: sets bit `n` with `ch | mask` when `v`
holds, clears it with `ch & (mask ^ MASKXOR)` otherwise; the result is
converted to `unsigned char`. -/
def putBit (ch : Nat) (n : Nat) (v : Bool) : Nat :=
  let mask := 1
  let mask := mask <<< n
  if v then
    ((ch % 256) ||| mask) % 256
  else
    let mask := mask ^^^ MASKXOR
    ((ch % 256) &&& mask) % 256

/-! ## image.h -/

/-- Representation for image file data (`image.h`, `Image`): the number of
rows, the pixels per row and the pixel data, `rows * cols` pixels with three
intensities each. -/
structure Image where
  rows : Nat
  cols : Nat
  color : List Nat
deriving DecidableEq

/-! ## C strings -/

/-- The function `strlen`: the number of bytes in front of the first zero
byte.  The list holds the bytes in memory; a zero terminator follows it. -/
def strlen : List Nat → Nat
  | [] => 0
  | c :: cs => if c = 0 then 0 else strlen cs + 1

/-- The bytes of the C string stored in the given memory: everything in front
of the first zero byte. -/
def cString : List Nat → List Nat
  | [] => []
  | c :: cs => if c = 0 then [] else c :: cString cs

/-! ## conceal.c -/

/-- The local variables of `insertMessage` that both of its loops update,
together with the channel buffer `image->color`. -/
structure Cursor where
  color : List Nat
  pixelColor : Nat
  pixelBit : Nat
  bitsFilled : Nat
deriving DecidableEq

/-- The body shared by the two loops of `insertMessage`:
```
if ( pixelBit >= numBits ) { pixelColor++; pixelBit = 0; }
image->color[ pixelColor ] = putBit( image->color[ pixelColor ], pixelBit++, v );
bitsFilled++;
```
It fails when `pixelColor` is not an index of the buffer. -/
def storeBit (numBits : Nat) (s : Cursor) (v : Bool) : Option Cursor :=
  let pixelColor := if s.pixelBit ≥ numBits then s.pixelColor + 1 else s.pixelColor
  let pixelBit := if s.pixelBit ≥ numBits then 0 else s.pixelBit
  match s.color[pixelColor]? with
  | none => none
  | some ch =>
    some { color := s.color.set pixelColor (putBit ch pixelBit v)
           pixelColor := pixelColor
           pixelBit := pixelBit + 1
           bitsFilled := s.bitsFilled + 1 }

/-- The inner loop `for ( int k = 0; k < BITS_PER_BYTE; k++ )` of
`insertMessage`, started at `k` with `todo = BITS_PER_BYTE - k` passes left. -/
def insertChar (numBits currentChar : Nat) : Nat → Nat → Cursor → Option Cursor
  | 0, _, s => some s
  | todo + 1, k, s =>
    match storeBit numBits s (getBit currentChar k) with
    | none => none
    | some s' => insertChar numBits currentChar todo (k + 1) s'

/-- The outer loop `for ( int i = 0; i < msgLen; i++ )` of `insertMessage`
with `todo = msgLen - i` passes left.  After the eight bits of `currentChar`
the next character `message[ msgPos++ ]` is fetched; past the stored bytes
this reads the zero terminator. -/
def insertChars (numBits : Nat) (message : List Nat) :
    Nat → Nat → Nat → Cursor → Option Cursor
  | 0, _, _, s => some s
  | todo + 1, msgPos, currentChar, s =>
    match insertChar numBits currentChar BITS_PER_BYTE 0 s with
    | none => none
    | some s' => insertChars numBits message todo (msgPos + 1) (message.getD msgPos 0) s'

/-- The loop `while ( bitsFilled < messageSpace )` of `insertMessage`; every
pass adds one to `bitsFilled`, so it makes `todo = messageSpace - bitsFilled`
passes. -/
def insertZeros (numBits : Nat) : Nat → Cursor → Option Cursor
  | 0, s => some s
  | todo + 1, s =>
    match storeBit numBits s false with
    | none => none
    | some s' => insertZeros numBits todo s'

/-- The function `insertMessage` of `conceal.c`.  It returns the image with
the updated channel buffer, or `none` when the cursor leaves the buffer. -/
def insertMessage (message : List Nat) (image : Image) (numBits messageSpace : Nat) :
    Option Image :=
  let msgLen := strlen message
  let currentChar := message.getD 0 0
  match insertChars numBits message msgLen 1 currentChar
      { color := image.color, pixelColor := 0, pixelBit := 0, bitsFilled := 0 } with
  | none => none
  | some s =>
    if messageSpace > s.bitsFilled then
      match insertZeros numBits (messageSpace - s.bitsFilled) s with
      | none => none
      | some s' => some { image with color := s'.color }
    else
      some { image with color := s.color }

/-! ## extract.c -/

/-- How a run of a loop whose number of passes is not known in advance ends:
with a result, with an access outside the channel buffer, or with the given
number of passes used up. -/
inductive Outcome (α : Type) where
  | done (a : α)
  | outOfBounds
  | outOfFuel
deriving DecidableEq

/-- The local variables of `extractMessage` that its loops update:
the bytes stored in `message` so far (`charCount` is their number) and the
cursor. -/
structure Reader where
  message : List Nat
  currentChar : Nat
  pixelColor : Nat
  pixelBit : Nat
  bitsRead : Nat
deriving DecidableEq

/-- The body of the inner loop of `extractMessage`:
```
if ( pixelBit >= numBits ) { pixelColor++; pixelBit = 0; }
currentChar = putBit( currentChar, i, getBit( *( image->color + pixelColor ), pixelBit++ ) );
```
It fails when `pixelColor` is not an index of the buffer. -/
def loadBit (color : List Nat) (numBits i : Nat) (r : Reader) : Option Reader :=
  let pixelColor := if r.pixelBit ≥ numBits then r.pixelColor + 1 else r.pixelColor
  let pixelBit := if r.pixelBit ≥ numBits then 0 else r.pixelBit
  match color[pixelColor]? with
  | none => none
  | some ch =>
    some { r with currentChar := putBit r.currentChar i (getBit ch pixelBit)
                  pixelColor := pixelColor
                  pixelBit := pixelBit + 1 }

/-- The inner loop `for ( int i = 0; i < BITS_PER_BYTE; i++ )` of
`extractMessage`, started at `i` with `todo = BITS_PER_BYTE - i` passes left. -/
def extractChar (color : List Nat) (numBits : Nat) : Nat → Nat → Reader → Option Reader
  | 0, _, r => some r
  | todo + 1, i, r =>
    match loadBit color numBits i r with
    | none => none
    | some r' => extractChar color numBits todo (i + 1) r'

/-- The loop `while ( currentChar != 0 && bitsRead < bitsMax )` of
`extractMessage`, run for at most `fuel` passes.  A pass assembles one byte
and stores it with `message[ charCount++ ] = currentChar`; the variable
`bitsRead` is not assigned in the loop. -/
def extractLoop (color : List Nat) (numBits : Nat) (bitsMax : Int) :
    Nat → Reader → Outcome Reader
  | 0, r =>
    if r.currentChar != 0 && decide ((r.bitsRead : Int) < bitsMax) then .outOfFuel else .done r
  | fuel + 1, r =>
    if r.currentChar != 0 && decide ((r.bitsRead : Int) < bitsMax) then
      match extractChar color numBits BITS_PER_BYTE 0 r with
      | none => .outOfBounds
      | some r' =>
        extractLoop color numBits bitsMax fuel { r' with message := r'.message ++ [r'.currentChar] }
    else
      .done r

/-- The function `extractMessage` of `extract.c`, its `while` loop run for at
most `fuel` passes.  `bitsMax` is the `int` product
`image->rows * image->cols * PIXEL_WIDTH * numBits`.  The result is the
content of the returned array: the bytes stored by the loop followed by the
terminator `message[ charCount ] = 0`. -/
def extractMessage (fuel : Nat) (image : Image) (numBits : Nat) : Outcome (List Nat) :=
  let bitsMax : Int := wrapInt ((image.rows : Int) * image.cols * PIXEL_WIDTH * numBits)
  match extractLoop image.color numBits bitsMax fuel
      { message := [], currentChar := 32, pixelColor := 0, pixelBit := 0, bitsRead := 0 } with
  | .done r => .done (r.message ++ [0])
  | .outOfBounds => .outOfBounds
  | .outOfFuel => .outOfFuel

/-! ## Carrier bits -/

/-- Carrier bit `j` of a channel buffer at bit depth `numBits`: bit
`j mod numBits` of channel byte `j div numBits`. -/
def carrierBit (color : List Nat) (numBits j : Nat) : Bool :=
  getBit (color.getD (j / numBits) 0) (j % numBits)

/-- Bit `j` of a message: bit `j mod 8` of message byte `j div 8`. -/
def messageBit (message : List Nat) (j : Nat) : Bool :=
  getBit (message.getD (j / 8) 0) (j % 8)

/-- The byte whose bits, least significant first, are the given ones. -/
def bitsToByte : List Bool → Nat
  | [] => 0
  | b :: bs => Nat.bit b (bitsToByte bs)

/-- The byte assembled, least significant bit first, from the `g`-th group of
eight carrier bits. -/
def carrierGroup (color : List Nat) (numBits g : Nat) : Nat :=
  bitsToByte ((List.range 8).map fun i => carrierBit color numBits (8 * g + i))

/-! ## The C library calls of image.c -/

/-- The C library function `isspace` in the "C" locale: space, `\t`, `\n`,
`\v`, `\f` and `\r`. -/
def isspace (c : Nat) : Bool :=
  c == 32 || (decide (9 ≤ c) && decide (c ≤ 13))

/-- The C library function `isdigit`. -/
def isdigit (c : Nat) : Bool :=
  decide (48 ≤ c) && decide (c ≤ 57)

/-- A white-space directive of a `fscanf` format (here `\n` and the blank):
input is read up to the first byte that is not white space, which stays
unread. -/
def skipSpace : List Nat → List Nat
  | [] => []
  | c :: cs => if isspace c then skipSpace cs else c :: cs

/-- The conversion `%s` of `fscanf`: leading white space is skipped, then the
bytes up to the next white-space byte are stored.  The result is the stored
bytes, if the input did not end before one was found, and the unread input. -/
def scanString (input : List Nat) : Option (List Nat) × List Nat :=
  let input := skipSpace input
  let token := input.takeWhile fun c => !isspace c
  if token = [] then (none, input) else (some token, input.dropWhile fun c => !isspace c)

/-- The digits of a `%d` conversion: the value of the longest run of decimal
digits, continuing from `acc`, and the unread input. -/
def scanDigits : List Nat → Nat → Nat × List Nat
  | [], acc => (acc, [])
  | c :: cs, acc => if isdigit c then scanDigits cs (10 * acc + (c - 48)) else (acc, c :: cs)

/-- The conversion `%d` of `fscanf`: leading white space is skipped, then an
optional sign and a non-empty run of decimal digits are read.  The result is
the value, if there was one, and the unread input.  Values are not reduced to
the range of `int`. -/
def scanInt (input : List Nat) : Option Int × List Nat :=
  match skipSpace input with
  | [] => (none, [])
  | c :: cs =>
    if c = 45 ∨ c = 43 then
      match cs with
      | [] => (none, [])
      | d :: ds =>
        if isdigit d then
          let r := scanDigits (d :: ds) 0
          (some (if c = 45 then -(r.1 : Int) else (r.1 : Int)), r.2)
        else (none, d :: ds)
    else if isdigit c then
      let r := scanDigits (c :: cs) 0
      (some (r.1 : Int), r.2)
    else (none, c :: cs)

/-- What the call `fscanf( fp, "%s\n%d %d\n%d\n", format, &width, &height,
&maxIntensity )` leaves behind: its return value, the bytes stored in
`format` (without the terminator), the three numbers, which keep their
initial value 0 when not assigned, and the unread input. -/
structure Scan where
  headerMatches : Int
  format : List Nat
  width : Int
  height : Int
  maxIntensity : Int
  rest : List Nat
deriving DecidableEq

/-- The call `fscanf( fp, "%s\n%d %d\n%d\n", ... )` of `readImage` on the
bytes of the file.  It returns `EOF = -1` when the input ends before the
`%s` conversion, otherwise the number of values assigned; the last directive
`\n` reads all white space that follows the fourth value. -/
def scanHeader (input : List Nat) : Scan :=
  match scanString input with
  | (none, rest) =>
    { headerMatches := -1, format := [], width := 0, height := 0, maxIntensity := 0, rest := rest }
  | (some format, r1) =>
    match scanInt (skipSpace r1) with
    | (none, rest) =>
      { headerMatches := 1, format := format, width := 0, height := 0, maxIntensity := 0,
        rest := rest }
    | (some width, r2) =>
      match scanInt (skipSpace r2) with
      | (none, rest) =>
        { headerMatches := 2, format := format, width := width, height := 0, maxIntensity := 0,
          rest := rest }
      | (some height, r3) =>
        match scanInt (skipSpace r3) with
        | (none, rest) =>
          { headerMatches := 3, format := format, width := width, height := height,
            maxIntensity := 0, rest := rest }
        | (some maxIntensity, r4) =>
          { headerMatches := 4, format := format, width := width, height := height,
            maxIntensity := maxIntensity, rest := skipSpace r4 }

/-- Decimal digits of `n`, most significant first, for at most `fuel` digits. -/
def decimalDigits : Nat → Nat → List Nat
  | 0, _ => []
  | fuel + 1, n => if n < 10 then [48 + n] else decimalDigits fuel (n / 10) ++ [48 + n % 10]

/-- The conversion `%d` of `fprintf` for a value that is not negative. -/
def decimal (n : Nat) : List Nat :=
  decimalDigits (n + 1) n

/-! ## image.h and image.c -/

/-- PPM file format string (`image.h`, `FORMAT`): the bytes of `"P6"`. -/
def FORMAT : List Nat := [80, 54]

/-- Maximum color value (`image.h`, `MAX_COLOR`). -/
def MAX_COLOR : Nat := 255

/-- Length of the format string (`image.c`, `FORMATLEN`); the array `format`
has `FORMATLEN + 1` bytes. -/
def FORMATLEN : Nat := 2

/-- Number of values the header scan has to assign (`image.c`, `HEADERARGS`). -/
def HEADERARGS : Nat := 4

/-- The messages the programs print to standard error before they give up. -/
inductive Report where
  | cannotOpen
  | invalidImage
  | usage
  | invalidBits
  | tooFewPixels
deriving DecidableEq

/-- How a call of a function that may end the process comes back: it returns
a value, it ends the process with `exit( status )` after a report, or its
behaviour is undefined in C (an access outside an array, a null stream). -/
inductive Run (α : Type) where
  | ret (a : α)
  | exit (status : Nat) (report : Report)
  | undefined
deriving DecidableEq

/-- The function `readImage` of `image.c` on the content of the named file,
`none` standing for a file that cannot be opened.  The conversion `%s` stores
the scanned bytes and a terminator in `char format[ FORMATLEN + 1 ]`; with
more than `FORMATLEN` bytes it writes past the end of the array.  `strcmp`
compares the string in `format`, `ftell` yields the number of bytes the scan
has read, and `fread` takes `expectedChars` bytes from there. -/
def readImage (file : Option (List Nat)) : Run Image :=
  match file with
  | none => .exit 1 .cannotOpen
  | some bytes =>
    let scan := scanHeader bytes
    if scan.format.length > FORMATLEN then .undefined
    else
      let expectedChars : Int := scan.width * scan.height * PIXEL_WIDTH
      let headerChars : Nat := bytes.length - scan.rest.length
      let charsAfterHeader : Int := (bytes.length : Int) - (headerChars : Int)
      if scan.headerMatches ≠ HEADERARGS ∨ cString scan.format ≠ FORMAT ∨ scan.width < 1 ∨
          scan.height < 1 ∨ scan.maxIntensity ≠ MAX_COLOR ∨ charsAfterHeader ≠ expectedChars then
        .exit 1 .invalidImage
      else
        .ret { rows := scan.height.toNat
               cols := scan.width.toNat
               color := (bytes.drop headerChars).take expectedChars.toNat }

/-- The function `writeImage` of `image.c`; the result is the content of the
file written.  `opens` tells whether the output file can be opened; `fwrite`
takes `cols * rows * PIXEL_WIDTH` bytes from the channel buffer, which is
undefined when the buffer is shorter. -/
def writeImage (image : Image) (opens : Bool) : Run (List Nat) :=
  if !opens then .exit 1 .cannotOpen
  else
    let header := FORMAT ++ [10] ++ decimal image.cols ++ [32] ++ decimal image.rows ++ [10] ++
      decimal MAX_COLOR ++ [10]
    let numBits := image.cols * image.rows * PIXEL_WIDTH
    if image.color.length < numBits then .undefined
    else .ret (header ++ image.color.take numBits)

/-! ## conceal.c: reading the message and the main program -/

/-- The function `readMessage` of `conceal.c` on the content of the message
file: every byte is stored and a terminator is added.  The result of `fopen`
is not checked, so a file that cannot be opened is a null stream. -/
def readMessage (file : Option (List Nat)) : Run (List Nat) :=
  match file with
  | none => .undefined
  | some bytes => .ret bytes

/-- The functions of the repository that `main` calls. -/
inductive Callee where
  | readImage
  | readMessage
  | insertMessage
  | writeImage
deriving DecidableEq

/-- What a run of the embed tool leaves behind: the exit status, the report on
standard error, the calls made in order, the image held when the program
ends, and the content of the output file if it was written. -/
structure Finished where
  status : Nat
  report : Option Report
  calls : List Callee
  image : Option Image
  output : Option (List Nat)
deriving DecidableEq

namespace Conceal

/-- Expected number of arguments for proper conceal usage (`NUMARGS`). -/
def NUMARGS : Nat := 5

/-- Minimum acceptable number of bits to replace (`MINBITS`). -/
def MINBITS : Int := 1

/-- Maximum acceptable number of bits to replace (`MAXBITS`). -/
def MAXBITS : Int := 8

/-- The function `main` of `conceal.c`.  `bits` is the value of
`atoi( argv[ BITSARG ] )`, `inputImage` and `inputMessage` are the contents
of the files named by `argv[ INPUTARG ]` and `argv[ MSGARG ]` (`none` when
the file cannot be opened), and `outputOpens` tells whether the file named by
`argv[ OUTPUTARG ]` can be opened for writing.  The result is `none` when the
behaviour of the run is undefined.  Reaching the end of `main` gives status 0.
`messageSpace` is an `int` product; the test
`strlen( message ) * BITS_PER_BYTE > messageSpace` is made in `size_t`, to
which `messageSpace` is converted modulo `2^64`.  `insertMessage` compares
its `int` argument `messageSpace` only with the counter `bitsFilled`, which
is never negative, so a negative `messageSpace` acts there as 0 does. -/
def main (argc : Nat) (bits : Int) (inputImage inputMessage : Option (List Nat))
    (outputOpens : Bool) : Option Finished :=
  if argc ≠ NUMARGS then
    some { status := 1, report := some .usage, calls := [], image := none, output := none }
  else if bits < MINBITS ∨ bits > MAXBITS then
    some { status := 1, report := some .invalidBits, calls := [], image := none, output := none }
  else
    match readImage inputImage with
    | .undefined => none
    | .exit status report =>
      some { status := status, report := some report, calls := [.readImage], image := none,
             output := none }
    | .ret image =>
      match readMessage inputMessage with
      | .undefined => none
      | .exit status report =>
        some { status := status, report := some report, calls := [.readImage, .readMessage],
               image := some image, output := none }
      | .ret message =>
        let messageSpace : Int :=
          wrapInt ((image.rows : Int) * image.cols * PIXEL_WIDTH * bits)
        if ((strlen message * BITS_PER_BYTE : Nat) : Int) >
            messageSpace % 18446744073709551616 then
          some { status := 1, report := some .tooFewPixels, calls := [.readImage, .readMessage],
                 image := some image, output := none }
        else
          match insertMessage message image bits.toNat messageSpace.toNat with
          | none => none
          | some image' =>
            match writeImage image' outputOpens with
            | .undefined => none
            | .exit status report =>
              some { status := status, report := some report,
                     calls := [.readImage, .readMessage, .insertMessage, .writeImage],
                     image := some image', output := none }
            | .ret bytes =>
              some { status := 0, report := none,
                     calls := [.readImage, .readMessage, .insertMessage, .writeImage],
                     image := some image', output := some bytes }

end Conceal

/-! ## Auxiliary notions for the proofs -/

/-- A cursor `(pixelColor, pixelBit)` stands in front of carrier bit `j`. -/
def CursorAt (numBits j pixelColor pixelBit : Nat) : Prop :=
  pixelColor * numBits + pixelBit = j ∧ pixelBit ≤ numBits

instance (numBits j pixelColor pixelBit : Nat) :
    Decidable (CursorAt numBits j pixelColor pixelBit) := by
  unfold CursorAt
  infer_instance

/-- Storing a list of bits one after the other with `storeBit`. -/
def storeBits (numBits : Nat) : List Bool → Cursor → Option Cursor
  | [], s => some s
  | b :: bs, s =>
    match storeBit numBits s b with
    | none => none
    | some s' => storeBits numBits bs s'

/-! ## Bit accessors -/

theorem getBit_eq_testBit (ch n : Nat) : getBit ch n = (ch % 256).testBit n := by
  unfold getBit
  simp only [Nat.one_shiftLeft]
  rw [Nat.and_two_pow]
  cases h : (ch % 256).testBit n <;> simp

theorem testBit_putBit (ch n : Nat) (v : Bool) (m : Nat) (hn : n < 8) :
    (putBit ch n v).testBit m = if m = n then v else (ch % 256).testBit m := by
  unfold putBit MASKXOR
  have h255 : (255 : Nat) = 2 ^ 8 - 1 := by norm_num
  have h256 : (256 : Nat) = 2 ^ 8 := by norm_num
  cases v
  · simp only [Nat.one_shiftLeft, Bool.false_eq_true, if_false]
    rw [h255, h256]
    simp only [Nat.testBit_mod_two_pow, Nat.testBit_and, Nat.testBit_xor, Nat.testBit_two_pow,
      Nat.testBit_two_pow_sub_one]
    by_cases hm : m = n
    · subst hm; simp [hn]
    · have : ¬ n = m := fun h => hm h.symm
      by_cases h8 : m < 8 <;> simp [hm, this, h8]
  · simp only [Nat.one_shiftLeft, if_true]
    rw [h256]
    simp only [Nat.testBit_mod_two_pow, Nat.testBit_or, Nat.testBit_two_pow]
    by_cases hm : m = n
    · subst hm; simp [hn]
    · have : ¬ n = m := fun h => hm h.symm
      by_cases h8 : m < 8 <;> simp [hm, this, h8]

theorem putBit_lt (ch n : Nat) (v : Bool) : putBit ch n v < 256 := by
  unfold putBit
  cases v <;> simp <;> omega

theorem getBit_putBit (ch n : Nat) (v : Bool) (m : Nat) (hn : n < 8) :
    getBit (putBit ch n v) m = if m = n then v else getBit ch m := by
  rw [getBit_eq_testBit, getBit_eq_testBit, Nat.mod_eq_of_lt (putBit_lt ch n v),
    testBit_putBit ch n v m hn]

theorem getBit_of_le (ch m : Nat) (hm : 8 ≤ m) : getBit ch m = false := by
  rw [getBit_eq_testBit]
  apply Nat.testBit_lt_two_pow
  calc ch % 256 < 256 := Nat.mod_lt _ (by norm_num)
    _ = 2 ^ 8 := by norm_num
    _ ≤ 2 ^ m := Nat.pow_le_pow_right (by norm_num) hm

/-- Two bytes with the same eight bits are equal. -/
theorem byte_ext (x y : Nat) (hx : x < 256) (hy : y < 256)
    (h : ∀ m, m < 8 → getBit x m = getBit y m) : x = y := by
  apply Nat.eq_of_testBit_eq
  intro m
  by_cases hm : m < 8
  · have := h m hm
    rwa [getBit_eq_testBit, getBit_eq_testBit, Nat.mod_eq_of_lt hx, Nat.mod_eq_of_lt hy] at this
  · have e1 := getBit_of_le x m (by omega)
    have e2 := getBit_of_le y m (by omega)
    rw [getBit_eq_testBit, Nat.mod_eq_of_lt hx] at e1
    rw [getBit_eq_testBit, Nat.mod_eq_of_lt hy] at e2
    rw [e1, e2]

/-- C2: for every byte `b` in [0,255] and every bit index `n` in [0,7], writing
back the bit just read leaves the byte as it was:
`putBit(b, n, getBit(b, n)) == b`. -/
theorem putBit_getBit_roundtrip (b n : Nat) (hb : b ≤ 255) (hn : n ≤ 7) :
    putBit b n (getBit b n) = b := by
  apply byte_ext _ _ (putBit_lt _ _ _) (by omega)
  intro m _
  rw [getBit_putBit _ _ _ _ (by omega)]
  by_cases hm : m = n
  · simp [hm]
  · simp [hm]

theorem putBit_getBit_roundtrip_witness :
    (0x5A : Nat) ≤ 255 ∧ (3 : Nat) ≤ 7 ∧ putBit 0x5A 3 (getBit 0x5A 3) = 0x5A :=
  ⟨by decide, by decide, putBit_getBit_roundtrip 0x5A 3 (by decide) (by decide)⟩

/-- C3: for every byte `b`, all bit indices `n`, `m` in [0,7] and every
boolean `v`, bit `m` of `putBit(b, n, v)` is `v` when `m == n` and is bit `m`
of `b` when `m != n`, and the result of `putBit` is a byte in [0,255]. -/
theorem getBit_putBit_forces_bit (b n m : Nat) (v : Bool) (_hb : b ≤ 255) (hn : n ≤ 7)
    (_hm : m ≤ 7) :
    (m = n → getBit (putBit b n v) m = v) ∧
    (m ≠ n → getBit (putBit b n v) m = getBit b m) ∧
    putBit b n v ≤ 255 := by
  have hlt := putBit_lt b n v
  refine ⟨fun h => ?_, fun h => ?_, by omega⟩
  · rw [getBit_putBit _ _ _ _ (by omega), if_pos h]
  · rw [getBit_putBit _ _ _ _ (by omega), if_neg h]

theorem getBit_putBit_forces_bit_witness :
    (0xC3 : Nat) ≤ 255 ∧ (2 : Nat) ≤ 7 ∧ (5 : Nat) ≤ 7 ∧
    (((5 : Nat) = 2 → getBit (putBit 0xC3 2 true) 5 = true) ∧
     ((5 : Nat) ≠ 2 → getBit (putBit 0xC3 2 true) 5 = getBit 0xC3 5) ∧
     putBit 0xC3 2 true ≤ 255) :=
  ⟨by decide, by decide, by decide,
    getBit_putBit_forces_bit 0xC3 2 5 true (by decide) (by decide) (by decide)⟩

/-- C4: for every byte `b`, every bit index `n` in [0,7] and every boolean `v`,
`putBit` is idempotent: `putBit(putBit(b, n, v), n, v) == putBit(b, n, v)`. -/
theorem putBit_idempotent (b n : Nat) (v : Bool) (_hb : b ≤ 255) (hn : n ≤ 7) :
    putBit (putBit b n v) n v = putBit b n v := by
  apply byte_ext _ _ (putBit_lt _ _ _) (putBit_lt _ _ _)
  intro m _
  rw [getBit_putBit _ _ _ _ (by omega), getBit_putBit _ _ _ _ (by omega)]
  by_cases hm : m = n
  · simp [hm]
  · simp [hm]

theorem putBit_idempotent_witness :
    (0x81 : Nat) ≤ 255 ∧ (7 : Nat) ≤ 7 ∧
    putBit (putBit 0x81 7 false) 7 false = putBit 0x81 7 false :=
  ⟨by decide, by decide, putBit_idempotent 0x81 7 false (by decide) (by decide)⟩

/-- C5: for every byte `b` in [0,255] and every `n` in [0,7], `getBit(b, n)` is
true if and only if bit `n` of `b`, bit 0 being the least significant, is set:
`(b / 2^n) % 2 == 1`. -/
theorem getBit_iff_bit_set (b n : Nat) (hb : b ≤ 255) (_hn : n ≤ 7) :
    getBit b n = true ↔ (b / 2 ^ n) % 2 = 1 := by
  rw [getBit_eq_testBit, Nat.mod_eq_of_lt (by omega), Nat.testBit_to_div_mod]
  simp

theorem getBit_iff_bit_set_witness :
    (0x41 : Nat) ≤ 255 ∧ (6 : Nat) ≤ 7 ∧ (getBit 0x41 6 = true ↔ (0x41 / 2 ^ 6) % 2 = 1) :=
  ⟨by decide, by decide, getBit_iff_bit_set 0x41 6 (by decide) (by decide)⟩

/-! ## The cursor and the carrier-bit stream -/

theorem cursor_norm (numBits j pc pb : Nat) (h1 : 1 ≤ numBits) (h : CursorAt numBits j pc pb) :
    (if pb ≥ numBits then pc + 1 else pc) = j / numBits ∧
    (if pb ≥ numBits then 0 else pb) = j % numBits := by
  obtain ⟨hj, hle⟩ := h
  subst hj
  by_cases hp : pb ≥ numBits
  · have hpb : pb = numBits := by omega
    subst hpb
    simp only [ge_iff_le, le_refl, if_true]
    constructor
    · rw [show pc * pb + pb = (pc + 1) * pb by ring]
      exact (Nat.mul_div_cancel _ (by omega)).symm
    · rw [show pc * pb + pb = (pc + 1) * pb by ring]
      exact (Nat.mul_mod_left _ _).symm
  · simp only [hp, if_false]
    have hlt : pb < numBits := by omega
    constructor
    · rw [Nat.mul_comm, Nat.mul_add_div (by omega), Nat.div_eq_of_lt hlt]; rfl
    · rw [Nat.mul_comm, Nat.mul_add_mod, Nat.mod_eq_of_lt hlt]

theorem cursorAt_succ (numBits j : Nat) (h1 : 1 ≤ numBits) :
    CursorAt numBits (j + 1) (j / numBits) (j % numBits + 1) := by
  constructor
  · have := Nat.div_add_mod j numBits
    rw [Nat.mul_comm] at this
    omega
  · have := Nat.mod_lt j (show 0 < numBits by omega)
    omega

theorem chan_index_iff (numBits j c m : Nat) (h1 : 1 ≤ numBits) :
    (c = j / numBits ∧ m = j % numBits) ↔ (m < numBits ∧ c * numBits + m = j) := by
  constructor
  · rintro ⟨rfl, rfl⟩
    refine ⟨Nat.mod_lt _ (by omega), ?_⟩
    rw [Nat.mul_comm]; exact Nat.div_add_mod j numBits
  · rintro ⟨hm, rfl⟩
    constructor
    · rw [Nat.mul_comm, Nat.mul_add_div (by omega), Nat.div_eq_of_lt hm]; rfl
    · rw [Nat.mul_comm, Nat.mul_add_mod, Nat.mod_eq_of_lt hm]

theorem div_lt_of_lt_mul (numBits j len : Nat) (h : j < len * numBits) : j / numBits < len := by
  exact Nat.div_lt_of_lt_mul (by rwa [Nat.mul_comm] at h)

theorem getBit_getD_set (color : List Nat) (a n c m : Nat) (v : Bool) (ha : a < color.length)
    (hn : n < 8) :
    getBit ((color.set a (putBit (color.getD a 0) n v)).getD c 0) m =
      if c = a ∧ m = n then v else getBit (color.getD c 0) m := by
  by_cases hc : c = a
  · subst hc
    rw [List.getD_eq_getElem?_getD, List.getElem?_set_self ha, Option.getD_some,
      getBit_putBit _ _ _ _ hn]
    simp
  · have hne : a ≠ c := fun h => hc h.symm
    rw [List.getD_eq_getElem?_getD, List.getElem?_set_ne hne, ← List.getD_eq_getElem?_getD]
    simp [hc]

theorem storeBit_eq (numBits j : Nat) (s : Cursor) (v : Bool) (h1 : 1 ≤ numBits)
    (hat : CursorAt numBits j s.pixelColor s.pixelBit) (hj : j < s.color.length * numBits) :
    storeBit numBits s v = some
      { color := s.color.set (j / numBits) (putBit (s.color.getD (j / numBits) 0) (j % numBits) v)
        pixelColor := j / numBits
        pixelBit := j % numBits + 1
        bitsFilled := s.bitsFilled + 1 } := by
  obtain ⟨e1, e2⟩ := cursor_norm numBits j s.pixelColor s.pixelBit h1 hat
  have hlt := div_lt_of_lt_mul numBits j s.color.length hj
  unfold storeBit
  simp only [e1, e2]
  rw [List.getElem?_eq_getElem hlt]
  simp [List.getD_eq_getElem?_getD, List.getElem?_eq_getElem hlt]


theorem storeBits_spec (numBits : Nat) (h1 : 1 ≤ numBits) (h8 : numBits ≤ 8) (bits : List Bool) :
    ∀ (j : Nat) (s : Cursor), CursorAt numBits j s.pixelColor s.pixelBit →
      j + bits.length ≤ s.color.length * numBits →
      ∃ s', storeBits numBits bits s = some s' ∧
        CursorAt numBits (j + bits.length) s'.pixelColor s'.pixelBit ∧
        s'.color.length = s.color.length ∧
        s'.bitsFilled = s.bitsFilled + bits.length ∧
        (∀ c m, getBit (s'.color.getD c 0) m =
          if m < numBits ∧ j ≤ c * numBits + m ∧ c * numBits + m < j + bits.length then
            bits.getD (c * numBits + m - j) false
          else getBit (s.color.getD c 0) m) ∧
        ∀ c, s'.color.getD c 0 = s.color.getD c 0 ∨ s'.color.getD c 0 < 256 := by
  induction bits with
  | nil =>
    intro j s hat _
    refine ⟨s, rfl, by simpa using hat, rfl, rfl, ?_, fun c => Or.inl rfl⟩
    intro c m
    rw [if_neg]
    simp only [List.length_nil, Nat.add_zero]
    omega
  | cons b bs ih =>
    intro j s hat hj
    simp only [List.length_cons] at hj ⊢
    have hjlt : j < s.color.length * numBits := by omega
    have hstep := storeBit_eq numBits j s b h1 hat hjlt
    have hmod : j % numBits < 8 := by
      have := Nat.mod_lt j (show 0 < numBits by omega)
      omega
    have hdiv := div_lt_of_lt_mul numBits j s.color.length hjlt
    obtain ⟨s', hs', hat', hlen', hfill', hbits', hbyte'⟩ := ih (j + 1)
      { color := s.color.set (j / numBits)
          (putBit (s.color.getD (j / numBits) 0) (j % numBits) b)
        pixelColor := j / numBits
        pixelBit := j % numBits + 1
        bitsFilled := s.bitsFilled + 1 }
      (cursorAt_succ numBits j h1)
      (by simp only [List.length_set]; omega)
    refine ⟨s', ?_, ?_, ?_, ?_, ?_, ?_⟩
    · simp only [storeBits, hstep]
      exact hs'
    · rw [show j + (bs.length + 1) = j + 1 + bs.length by omega]
      exact hat'
    · rw [hlen', List.length_set]
    · rw [hfill']
      simp only
      omega
    · intro c m
      rw [hbits' c m, getBit_getD_set _ _ _ _ _ _ hdiv hmod]
      have hiff := chan_index_iff numBits j c m h1
      by_cases hlater : m < numBits ∧ j + 1 ≤ c * numBits + m ∧ c * numBits + m < j + 1 + bs.length
      · rw [if_pos hlater, if_pos (by omega)]
        obtain ⟨_, h2, _⟩ := hlater
        obtain ⟨d, hd⟩ : ∃ d, c * numBits + m - j = d + 1 := ⟨c * numBits + m - j - 1, by omega⟩
        rw [hd, show c * numBits + m - (j + 1) = d by omega]
        rfl
      · rw [if_neg hlater]
        by_cases hhere : c = j / numBits ∧ m = j % numBits
        · have hh := hiff.mp hhere
          rw [if_pos hhere, if_pos (by omega)]
          rw [show c * numBits + m - j = 0 by omega]
          rfl
        · rw [if_neg hhere, if_neg]
          intro hcon
          apply hhere
          apply hiff.mpr
          refine ⟨hcon.1, ?_⟩
          by_contra hne
          apply hlater
          omega
    · intro c
      rcases hbyte' c with h | h
      · by_cases hc : c = j / numBits
        · right
          rw [h, hc, List.getD_eq_getElem?_getD, List.getElem?_set_self hdiv, Option.getD_some]
          exact putBit_lt _ _ _
        · left
          rw [h, List.getD_eq_getElem?_getD, List.getElem?_set_ne (fun e => hc e.symm),
            ← List.getD_eq_getElem?_getD]
      · exact Or.inr h

theorem storeBits_append (numBits : Nat) (as bs : List Bool) :
    ∀ s : Cursor, storeBits numBits (as ++ bs) s =
      (storeBits numBits as s).bind (storeBits numBits bs) := by
  induction as with
  | nil => intro s; rfl
  | cons a as ih =>
    intro s
    simp only [List.cons_append, storeBits]
    cases storeBit numBits s a with
    | none => rfl
    | some s' => exact ih s'

theorem storeBit_bitsFilled (numBits : Nat) (s s' : Cursor) (b : Bool)
    (h : storeBit numBits s b = some s') : s'.bitsFilled = s.bitsFilled + 1 := by
  unfold storeBit at h
  simp only at h
  split at h
  · exact absurd h (by simp)
  · injection h with h
    subst h
    rfl

theorem storeBits_bitsFilled (numBits : Nat) (bits : List Bool) :
    ∀ s s' : Cursor, storeBits numBits bits s = some s' →
      s'.bitsFilled = s.bitsFilled + bits.length := by
  induction bits with
  | nil => intro s s' h; simp only [storeBits, Option.some.injEq] at h; subst h; rfl
  | cons b bs ih =>
    intro s s' h
    simp only [storeBits] at h
    cases hb : storeBit numBits s b with
    | none => rw [hb] at h; exact absurd h (by simp)
    | some s1 =>
      rw [hb] at h
      have h1 := ih s1 s' h
      have h2 := storeBit_bitsFilled numBits s s1 b hb
      rw [h1, h2, List.length_cons]
      omega

theorem insertChar_eq (numBits currentChar : Nat) (todo : Nat) :
    ∀ (k : Nat) (s : Cursor), insertChar numBits currentChar todo k s =
      storeBits numBits ((List.range' k todo).map (getBit currentChar)) s := by
  induction todo with
  | zero => intro k s; rfl
  | succ todo ih =>
    intro k s
    simp only [insertChar, List.range'_succ, List.map_cons, storeBits]
    cases storeBit numBits s (getBit currentChar k) with
    | none => rfl
    | some s' => exact ih (k + 1) s'

theorem insertZeros_eq (numBits : Nat) (todo : Nat) :
    ∀ s : Cursor, insertZeros numBits todo s =
      storeBits numBits (List.replicate todo false) s := by
  induction todo with
  | zero => intro s; rfl
  | succ todo ih =>
    intro s
    simp only [insertZeros, List.replicate_succ, storeBits]
    cases storeBit numBits s false with
    | none => rfl
    | some s' => exact ih s'

theorem messageBit_char (message : List Nat) (p : Nat) :
    (List.range' (8 * p) 8).map (messageBit message) =
      (List.range' 0 8).map (getBit (message.getD p 0)) := by
  apply List.ext_getElem
  · simp
  · intro i h1 _
    have hi : i < 8 := by simpa using h1
    simp only [List.getElem_map, List.getElem_range', messageBit, Nat.one_mul, Nat.zero_add]
    rw [show (8 * p + i) / 8 = p by omega, show (8 * p + i) % 8 = i by omega]

theorem insertChars_eq (numBits : Nat) (message : List Nat) (todo : Nat) :
    ∀ (p : Nat) (s : Cursor),
      insertChars numBits message todo (p + 1) (message.getD p 0) s =
        storeBits numBits ((List.range' (8 * p) (8 * todo)).map (messageBit message)) s := by
  induction todo with
  | zero => intro p s; rfl
  | succ todo ih =>
    intro p s
    have hsplit : List.range' (8 * p) (8 * (todo + 1)) =
        List.range' (8 * p) 8 ++ List.range' (8 * (p + 1)) (8 * todo) := by
      rw [show 8 * (todo + 1) = 8 * todo + 8 by ring, ← List.range'_append]
      simp [Nat.mul_add]
    rw [hsplit, List.map_append, storeBits_append, messageBit_char]
    simp only [insertChars, BITS_PER_BYTE, insertChar_eq]
    cases storeBits numBits ((List.range' 0 8).map (getBit (message.getD p 0))) s with
    | none => rfl
    | some s' => exact ih (p + 1) s'

theorem insertMessage_eq (message : List Nat) (image : Image) (numBits messageSpace : Nat) :
    insertMessage message image numBits messageSpace =
      (storeBits numBits
        ((List.range' 0 (8 * strlen message)).map (messageBit message) ++
          List.replicate (messageSpace - 8 * strlen message) false)
        { color := image.color, pixelColor := 0, pixelBit := 0, bitsFilled := 0 }).map
        (fun s => { image with color := s.color }) := by
  unfold insertMessage
  simp only
  have h := insertChars_eq numBits message (strlen message) 0
    { color := image.color, pixelColor := 0, pixelBit := 0, bitsFilled := 0 }
  simp only [Nat.zero_add, Nat.mul_zero] at h
  rw [h, storeBits_append]
  cases hs : storeBits numBits ((List.range' 0 (8 * strlen message)).map (messageBit message))
      { color := image.color, pixelColor := 0, pixelBit := 0, bitsFilled := 0 } with
  | none => rfl
  | some s =>
    have hfill := storeBits_bitsFilled numBits _ _ _ hs
    simp only [List.length_map, List.length_range', Nat.zero_add] at hfill
    simp only [Option.some_bind]
    rw [hfill]
    by_cases hgt : messageSpace > 8 * strlen message
    · rw [if_pos hgt, insertZeros_eq]
      cases storeBits numBits (List.replicate (messageSpace - 8 * strlen message) false) s with
      | none => rfl
      | some s' => rfl
    · rw [if_neg hgt, show messageSpace - 8 * strlen message = 0 by omega]
      rfl

theorem stream_getD (f : Nat → Bool) (n k p : Nat) :
    ((List.range' 0 n).map f ++ List.replicate k false).getD p false =
      (decide (p < n) && f p) := by
  rw [List.getD_eq_getElem?_getD]
  by_cases hp : p < n
  · rw [List.getElem?_append_left (by simpa using hp)]
    simp [hp, List.getElem?_range']
  · rw [List.getElem?_append_right (by simpa using hp)]
    simp only [hp, decide_False, Bool.false_and]
    cases h : (List.replicate k false)[p - ((List.range' 0 n).map f).length]? with
    | none => rfl
    | some b =>
      rw [List.getElem?_replicate] at h
      split at h
      · injection h with h; subst h; rfl
      · exact absurd h (by simp)

theorem insertMessage_spec (message : List Nat) (image : Image) (numBits messageSpace : Nat)
    (h1 : 1 ≤ numBits) (h8 : numBits ≤ 8) (hfit : 8 * strlen message ≤ messageSpace)
    (hcap : messageSpace ≤ image.color.length * numBits) :
    ∃ image', insertMessage message image numBits messageSpace = some image' ∧
      image'.rows = image.rows ∧ image'.cols = image.cols ∧
      image'.color.length = image.color.length ∧
      (∀ c m, getBit (image'.color.getD c 0) m =
        if m < numBits ∧ c * numBits + m < messageSpace then
          (decide (c * numBits + m < 8 * strlen message) &&
            messageBit message (c * numBits + m))
        else getBit (image.color.getD c 0) m) ∧
      ∀ c, image'.color.getD c 0 = image.color.getD c 0 ∨ image'.color.getD c 0 < 256 := by
  have hlen : ((List.range' 0 (8 * strlen message)).map (messageBit message) ++
      List.replicate (messageSpace - 8 * strlen message) false).length = messageSpace := by
    simp only [List.length_append, List.length_map, List.length_range', List.length_replicate]
    omega
  obtain ⟨s', hs', _, hlen', _, hbits, hbyte⟩ := storeBits_spec numBits h1 h8
    ((List.range' 0 (8 * strlen message)).map (messageBit message) ++
      List.replicate (messageSpace - 8 * strlen message) false) 0
    { color := image.color, pixelColor := 0, pixelBit := 0, bitsFilled := 0 }
    ⟨by simp, by simp⟩ (by rw [hlen]; simpa using hcap)
  refine ⟨{ image with color := s'.color }, ?_, rfl, rfl, hlen', ?_, hbyte⟩
  · rw [insertMessage_eq, hs']; rfl
  · intro c m
    have := hbits c m
    rw [hlen, stream_getD] at this
    simpa using this

/-! ## Embedding -/

/-- C6, as amended: for every `numBits` in [1,8], every buffer of `rows*cols*3`
channel bytes and every message with
`8*len(message) <= capacity = rows*cols*3*numBits`, where `len(message)` is
the number of bytes in front of the first zero byte of the message (`strlen`),
`insertMessage` succeeds and afterwards carrier bit `j` holds message bit `j`
for every `j < 8*len(message)`: bit `j mod numBits` of channel byte
`j div numBits` equals bit `j mod 8` of message byte `j div 8`. -/
theorem insertMessage_lays_out_message_bits (message : List Nat) (image : Image)
    (numBits : Nat) (h1 : 1 ≤ numBits) (h8 : numBits ≤ 8)
    (hlen : image.color.length = image.rows * image.cols * PIXEL_WIDTH)
    (hfit : 8 * strlen message ≤ image.rows * image.cols * PIXEL_WIDTH * numBits) :
    ∃ image', insertMessage message image numBits
        (image.rows * image.cols * PIXEL_WIDTH * numBits) = some image' ∧
      ∀ j, j < 8 * strlen message →
        getBit (image'.color.getD (j / numBits) 0) (j % numBits) =
          getBit (message.getD (j / 8) 0) (j % 8) := by
  obtain ⟨image', hins, _, _, _, hbits, _⟩ := insertMessage_spec message image numBits
    (image.rows * image.cols * PIXEL_WIDTH * numBits) h1 h8 hfit (by rw [hlen])
  refine ⟨image', hins, ?_⟩
  intro j hj
  have hmod := Nat.mod_lt j (show 0 < numBits by omega)
  have hsum : j / numBits * numBits + j % numBits = j := by
    rw [Nat.mul_comm]; exact Nat.div_add_mod j numBits
  rw [hbits (j / numBits) (j % numBits), hsum, if_pos ⟨hmod, by omega⟩]
  simp [hj, messageBit]

theorem insertMessage_lays_out_message_bits_witness :
    (1 ≤ 3 ∧ 3 ≤ 8) ∧ [9, 8, 7, 6, 5, 4].length = 1 * 2 * PIXEL_WIDTH ∧
    8 * strlen [0x48, 0x69] ≤ 1 * 2 * PIXEL_WIDTH * 3 ∧
    ∃ image', insertMessage [0x48, 0x69] { rows := 1, cols := 2, color := [9, 8, 7, 6, 5, 4] } 3
        (1 * 2 * PIXEL_WIDTH * 3) = some image' ∧
      ∀ j, j < 8 * strlen [0x48, 0x69] →
        getBit (image'.color.getD (j / 3) 0) (j % 3) =
          getBit ([0x48, 0x69].getD (j / 8) 0) (j % 8) :=
  ⟨by decide, by decide, by decide,
    insertMessage_lays_out_message_bits [0x48, 0x69]
      { rows := 1, cols := 2, color := [9, 8, 7, 6, 5, 4] } 3 (by decide) (by decide)
      (by decide) (by decide)⟩

/-- C7: for every `numBits` in [1,8], every buffer of `rows*cols*3` channel
bytes and every message with `8*len(message) < capacity = rows*cols*3*numBits`,
after `insertMessage` every carrier bit beyond the message and within capacity
is 0, whatever the buffer held before: for every `j` with
`8*len(message) <= j < capacity`, bit `j mod numBits` of channel byte
`j div numBits` is 0. -/
theorem insertMessage_zero_pads (message : List Nat) (image : Image)
    (numBits : Nat) (h1 : 1 ≤ numBits) (h8 : numBits ≤ 8)
    (hlen : image.color.length = image.rows * image.cols * PIXEL_WIDTH)
    (hfit : 8 * strlen message < image.rows * image.cols * PIXEL_WIDTH * numBits) :
    ∃ image', insertMessage message image numBits
        (image.rows * image.cols * PIXEL_WIDTH * numBits) = some image' ∧
      ∀ j, 8 * strlen message ≤ j → j < image.rows * image.cols * PIXEL_WIDTH * numBits →
        getBit (image'.color.getD (j / numBits) 0) (j % numBits) = false := by
  obtain ⟨image', hins, _, _, _, hbits, _⟩ := insertMessage_spec message image numBits
    (image.rows * image.cols * PIXEL_WIDTH * numBits) h1 h8 (by omega) (by rw [hlen])
  refine ⟨image', hins, ?_⟩
  intro j hj hcap
  have hmod := Nat.mod_lt j (show 0 < numBits by omega)
  have hsum : j / numBits * numBits + j % numBits = j := by
    rw [Nat.mul_comm]; exact Nat.div_add_mod j numBits
  rw [hbits (j / numBits) (j % numBits), hsum, if_pos ⟨hmod, hcap⟩]
  simp [show ¬ j < 8 * strlen message by omega]

theorem insertMessage_zero_pads_witness :
    (1 ≤ 4 ∧ 4 ≤ 8) ∧ [255, 255, 255].length = 1 * 1 * PIXEL_WIDTH ∧
    8 * strlen [0x21] < 1 * 1 * PIXEL_WIDTH * 4 ∧
    ∃ image', insertMessage [0x21] { rows := 1, cols := 1, color := [255, 255, 255] } 4
        (1 * 1 * PIXEL_WIDTH * 4) = some image' ∧
      ∀ j, 8 * strlen [0x21] ≤ j → j < 1 * 1 * PIXEL_WIDTH * 4 →
        getBit (image'.color.getD (j / 4) 0) (j % 4) = false :=
  ⟨by decide, by decide, by decide,
    insertMessage_zero_pads [0x21] { rows := 1, cols := 1, color := [255, 255, 255] } 4
      (by decide) (by decide) (by decide) (by decide)⟩

/-! ## Extraction -/

theorem loadBit_eq (color : List Nat) (numBits i j : Nat) (r : Reader) (h1 : 1 ≤ numBits)
    (hat : CursorAt numBits j r.pixelColor r.pixelBit) (hj : j < color.length * numBits) :
    loadBit color numBits i r = some
      { r with currentChar := putBit r.currentChar i (carrierBit color numBits j)
               pixelColor := j / numBits
               pixelBit := j % numBits + 1 } := by
  obtain ⟨e1, e2⟩ := cursor_norm numBits j r.pixelColor r.pixelBit h1 hat
  have hlt := div_lt_of_lt_mul numBits j color.length hj
  unfold loadBit carrierBit
  simp only [e1, e2]
  rw [List.getElem?_eq_getElem hlt]
  simp [List.getD_eq_getElem?_getD, List.getElem?_eq_getElem hlt]

theorem extractChar_spec (color : List Nat) (numBits : Nat) (h1 : 1 ≤ numBits) (todo : Nat) :
    ∀ (i j : Nat) (r : Reader), i + todo ≤ 8 →
      CursorAt numBits j r.pixelColor r.pixelBit →
      j + todo ≤ color.length * numBits →
      ∃ r', extractChar color numBits todo i r = some r' ∧
        CursorAt numBits (j + todo) r'.pixelColor r'.pixelBit ∧
        r'.message = r.message ∧ r'.bitsRead = r.bitsRead ∧
        (∀ m, getBit r'.currentChar m =
          if i ≤ m ∧ m < i + todo then carrierBit color numBits (j + (m - i))
          else getBit r.currentChar m) ∧
        (0 < todo → r'.currentChar < 256) := by
  induction todo with
  | zero =>
    intro i j r _ hat _
    refine ⟨r, rfl, by simpa using hat, rfl, rfl, ?_, fun h => absurd h (by omega)⟩
    intro m
    rw [if_neg (by omega)]
  | succ todo ih =>
    intro i j r hi hat hj
    have hstep := loadBit_eq color numBits i j r h1 hat (by omega)
    obtain ⟨r', hr', hat', hmsg', hread', hbits', hlt'⟩ := ih (i + 1) (j + 1)
      { r with currentChar := putBit r.currentChar i (carrierBit color numBits j)
               pixelColor := j / numBits
               pixelBit := j % numBits + 1 }
      (by omega) (cursorAt_succ numBits j h1) (by omega)
    refine ⟨r', ?_, ?_, hmsg', hread', ?_, ?_⟩
    · simp only [extractChar, hstep]
      exact hr'
    · rw [show j + (todo + 1) = j + 1 + todo by omega]
      exact hat'
    · intro m
      rw [hbits' m]
      simp only
      rw [getBit_putBit _ _ _ _ (by omega)]
      by_cases hlater : i + 1 ≤ m ∧ m < i + 1 + todo
      · rw [if_pos hlater, if_pos (by omega)]
        congr 1
        omega
      · rw [if_neg hlater]
        by_cases hm : m = i
        · rw [if_pos hm, if_pos (by omega), hm, Nat.sub_self, Nat.add_zero]
        · rw [if_neg hm, if_neg (by omega)]
    · intro _
      by_cases ht : 0 < todo
      · exact hlt' ht
      · have ht0 : todo = 0 := by omega
        subst ht0
        simp only [extractChar, Option.some.injEq] at hr'
        rw [← hr']
        exact putBit_lt _ _ _

theorem testBit_bitsToByte (bs : List Bool) :
    ∀ m, (bitsToByte bs).testBit m = bs.getD m false := by
  induction bs with
  | nil => intro m; simp [bitsToByte]
  | cons b bs ih =>
    intro m
    cases m with
    | zero => simp [bitsToByte, Nat.testBit_bit_zero]
    | succ m => simp [bitsToByte, Nat.testBit_bit_succ, ih m]

theorem bitsToByte_lt (bs : List Bool) : bitsToByte bs < 2 ^ bs.length := by
  apply Nat.lt_pow_two_of_testBit
  intro i hi
  rw [testBit_bitsToByte, List.getD_eq_getElem?_getD, List.getElem?_eq_none (by omega)]
  rfl

theorem carrierGroup_lt (color : List Nat) (numBits g : Nat) :
    carrierGroup color numBits g < 256 := by
  have := bitsToByte_lt ((List.range 8).map fun i => carrierBit color numBits (8 * g + i))
  simpa [carrierGroup] using this

theorem getBit_carrierGroup (color : List Nat) (numBits g m : Nat) (hm : m < 8) :
    getBit (carrierGroup color numBits g) m = carrierBit color numBits (8 * g + m) := by
  rw [getBit_eq_testBit, Nat.mod_eq_of_lt (carrierGroup_lt color numBits g)]
  unfold carrierGroup
  rw [testBit_bitsToByte, List.getD_eq_getElem?_getD]
  simp [List.getElem?_range hm, hm]

theorem wrapInt_of_lt (x : Nat) (h : x < 2 ^ 31) : wrapInt (x : Int) = x := by
  unfold wrapInt
  omega

/-- A capacity below `2^31` is what `extractMessage` computes as `bitsMax`. -/
theorem wrapInt_capacity (rows cols numBits : Nat)
    (h : rows * cols * PIXEL_WIDTH * numBits < 2 ^ 31) :
    wrapInt ((rows : Int) * cols * PIXEL_WIDTH * numBits) =
      ((rows * cols * PIXEL_WIDTH * numBits : Nat) : Int) := by
  rw [← wrapInt_of_lt _ h]
  push_cast
  rfl

theorem bitsMax_pos (rows cols numBits : Nat)
    (h : rows * cols * PIXEL_WIDTH * numBits < 2 ^ 31)
    (hpos : 0 < rows * cols * PIXEL_WIDTH * numBits) :
    ((0 : Nat) : Int) < wrapInt ((rows : Int) * cols * PIXEL_WIDTH * numBits) := by
  rw [wrapInt_capacity rows cols numBits h]
  exact_mod_cast hpos

theorem extractLoop_of_bitsMax_nonpos (color : List Nat) (numBits : Nat) (bitsMax : Int)
    (hb : bitsMax ≤ 0) (fuel : Nat) (r : Reader) :
    extractLoop color numBits bitsMax fuel r = .done r := by
  have hcond : (r.currentChar != 0 && decide ((r.bitsRead : Int) < bitsMax)) = false := by
    simp only [Bool.and_eq_false_iff, decide_eq_false_iff_not]; right; omega
  cases fuel with
  | zero => simp only [extractLoop, hcond, Bool.false_eq_true, if_false]
  | succ fuel => simp only [extractLoop, hcond, Bool.false_eq_true, if_false]

/-- When the `int` product for `bitsMax` is zero or negative the loop of
`extractMessage` is never entered and the empty string is returned. -/
theorem extractMessage_of_bitsMax_nonpos (fuel : Nat) (image : Image) (numBits : Nat)
    (h : wrapInt ((image.rows : Int) * image.cols * PIXEL_WIDTH * numBits) ≤ 0) :
    extractMessage fuel image numBits = .done [0] := by
  unfold extractMessage
  simp only [extractLoop_of_bitsMax_nonpos _ _ _ h, List.nil_append]

/-- One full pass of the inner loop of `extractMessage` in front of group `g`
assembles that group. -/
theorem extractChar_group (color : List Nat) (numBits : Nat) (h1 : 1 ≤ numBits) (g : Nat)
    (r : Reader) (hat : CursorAt numBits (8 * g) r.pixelColor r.pixelBit)
    (hin : 8 * (g + 1) ≤ color.length * numBits) :
    ∃ r', extractChar color numBits BITS_PER_BYTE 0 r = some r' ∧
      CursorAt numBits (8 * (g + 1)) r'.pixelColor r'.pixelBit ∧
      r'.message = r.message ∧ r'.bitsRead = r.bitsRead ∧
      r'.currentChar = carrierGroup color numBits g := by
  obtain ⟨r', hr', hat', hmsg', hread', hbits', hlt'⟩ :=
    extractChar_spec color numBits h1 8 0 (8 * g) r (by omega) hat (by omega)
  refine ⟨r', hr', by rw [show 8 * (g + 1) = 8 * g + 8 by ring]; exact hat', hmsg', hread', ?_⟩
  apply byte_ext _ _ (hlt' (by omega)) (carrierGroup_lt color numBits g)
  intro m hm
  rw [hbits' m, if_pos (by omega), getBit_carrierGroup _ _ _ _ hm, Nat.sub_zero]

theorem extractLoop_spec (color : List Nat) (numBits : Nat) (bitsMax : Int) (h1 : 1 ≤ numBits)
    (k : Nat) :
    ∀ (g fuel : Nat) (r : Reader), r.currentChar ≠ 0 → (r.bitsRead : Int) < bitsMax →
      CursorAt numBits (8 * g) r.pixelColor r.pixelBit →
      8 * (g + k + 1) ≤ color.length * numBits →
      (∀ t, t < k → carrierGroup color numBits (g + t) ≠ 0) →
      carrierGroup color numBits (g + k) = 0 →
      k < fuel →
      ∃ r', extractLoop color numBits bitsMax fuel r = .done r' ∧
        r'.message = r.message ++ (List.range' g k).map (carrierGroup color numBits) ++ [0] := by
  induction k with
  | zero =>
    intro g fuel r hcur hread hat hin _ hz hfuel
    obtain ⟨fuel, rfl⟩ : ∃ f, fuel = f + 1 := ⟨fuel - 1, by omega⟩
    obtain ⟨r1, hr1, _, hmsg1, _, hcur1⟩ := extractChar_group color numBits h1 g r hat (by omega)
    rw [Nat.add_zero] at hz
    rw [hz] at hcur1
    have hcond : (r.currentChar != 0 && decide ((r.bitsRead : Int) < bitsMax)) = true := by
      simp [hcur, hread]
    refine ⟨{ r1 with message := r1.message ++ [r1.currentChar] }, ?_, ?_⟩
    · simp only [extractLoop, hcond, if_true, hr1]
      cases fuel with
      | zero => simp [extractLoop, hcur1]
      | succ f => simp [extractLoop, hcur1]
    · simp [hmsg1, hcur1]
  | succ k ih =>
    intro g fuel r hcur hread hat hin hnz hz hfuel
    obtain ⟨fuel, rfl⟩ : ∃ f, fuel = f + 1 := ⟨fuel - 1, by omega⟩
    obtain ⟨r1, hr1, hat1, hmsg1, hread1, hcur1⟩ :=
      extractChar_group color numBits h1 g r hat (by omega)
    have hg : carrierGroup color numBits g ≠ 0 := by
      have := hnz 0 (by omega)
      rwa [Nat.add_zero] at this
    obtain ⟨r', hr', hmsg'⟩ := ih (g + 1) fuel
      { r1 with message := r1.message ++ [r1.currentChar] }
      (by rw [hcur1]; exact hg) (by rw [hread1]; exact hread) hat1 (by omega)
      (fun t ht => by
        have := hnz (t + 1) (by omega)
        rwa [show g + (t + 1) = g + 1 + t by omega] at this)
      (by rwa [show g + (k + 1) = g + 1 + k by omega] at hz) (by omega)
    have hcond : (r.currentChar != 0 && decide ((r.bitsRead : Int) < bitsMax)) = true := by
      simp [hcur, hread]
    refine ⟨r', ?_, ?_⟩
    · simp only [extractLoop, hcond, if_true, hr1]
      exact hr'
    · rw [hmsg']
      simp [hmsg1, hcur1, List.range'_succ]

theorem cString_append_zero (bs rest : List Nat) (h : 0 ∉ bs) :
    cString (bs ++ 0 :: rest) = bs := by
  induction bs with
  | nil => simp [cString]
  | cons b bs ih =>
    have hb : b ≠ 0 := fun e => h (by simp [e])
    have hbs : 0 ∉ bs := fun e => h (by simp [e])
    simp [cString, hb, ih hbs]

/-- C8, as amended: for every `numBits` in [1,8] and every channel buffer of
`rows*cols*3` bytes whose capacity `rows*cols*3*numBits` is below `2^31`, so
that it fits the `int` `bitsMax`, and whose carrier-bit stream, read in 8-bit
groups least significant bit first, has its first all-zero group `k` wholly
within the capacity, `extractMessage` stops at that group after `k + 1`
passes: the array it returns holds the bytes of the groups before the zero
group, the zero byte and the terminator, so the returned string is exactly
the bytes of the groups before the first all-zero group, it excludes the zero
byte and contains no zero byte. -/
theorem extractMessage_stops_at_first_zero_group (image : Image) (numBits k fuel : Nat)
    (h1 : 1 ≤ numBits) (_h8 : numBits ≤ 8)
    (hlen : image.color.length = image.rows * image.cols * PIXEL_WIDTH)
    (hint : image.rows * image.cols * PIXEL_WIDTH * numBits < 2 ^ 31)
    (hin : 8 * (k + 1) ≤ image.rows * image.cols * PIXEL_WIDTH * numBits)
    (hnz : ∀ g, g < k → carrierGroup image.color numBits g ≠ 0)
    (hz : carrierGroup image.color numBits k = 0)
    (hfuel : k < fuel) :
    extractMessage fuel image numBits =
      .done ((List.range k).map (carrierGroup image.color numBits) ++ [0, 0]) ∧
    cString ((List.range k).map (carrierGroup image.color numBits) ++ [0, 0]) =
      (List.range k).map (carrierGroup image.color numBits) ∧
    0 ∉ (List.range k).map (carrierGroup image.color numBits) := by
  have hmem : 0 ∉ (List.range k).map (carrierGroup image.color numBits) := by
    intro h
    obtain ⟨g, hg, hg0⟩ := List.mem_map.mp h
    exact hnz g (List.mem_range.mp hg) hg0
  refine ⟨?_, cString_append_zero _ _ hmem, hmem⟩
  obtain ⟨r', hr', hmsg'⟩ := extractLoop_spec image.color numBits
    (wrapInt ((image.rows : Int) * image.cols * PIXEL_WIDTH * numBits)) h1 k 0 fuel
    { message := [], currentChar := 32, pixelColor := 0, pixelBit := 0, bitsRead := 0 }
    (by decide) (bitsMax_pos _ _ _ hint (by omega)) ⟨by simp, by simp⟩
    (by rw [hlen]; omega)
    (fun t ht => by rw [Nat.zero_add]; exact hnz t ht)
    (by rw [Nat.zero_add]; exact hz) hfuel
  unfold extractMessage
  simp only [hr', hmsg', List.nil_append, List.append_assoc, List.singleton_append,
    List.range_eq_range']

theorem extractMessage_stops_at_first_zero_group_witness :
    (1 ≤ 4 ∧ 4 ≤ 8) ∧ [0x18, 0x14, 0x09, 0x16, 0x30, 0xF0].length = 1 * 2 * PIXEL_WIDTH ∧
    1 * 2 * PIXEL_WIDTH * 4 < 2 ^ 31 ∧
    8 * (2 + 1) ≤ 1 * 2 * PIXEL_WIDTH * 4 ∧
    extractMessage 3 { rows := 1, cols := 2, color := [0x18, 0x14, 0x09, 0x16, 0x30, 0xF0] } 4 =
      .done ([0x48, 0x69] ++ [0, 0]) :=
  ⟨by decide, by decide, by decide, by decide,
    (extractMessage_stops_at_first_zero_group
      { rows := 1, cols := 2, color := [0x18, 0x14, 0x09, 0x16, 0x30, 0xF0] } 4 2 3
      (by decide) (by decide) (by decide) (by decide) (by decide) (by decide) (by decide)
      (by decide)).1⟩

/-! ## Embedding followed by extraction -/

theorem strlen_le_length (message : List Nat) : strlen message ≤ message.length := by
  induction message with
  | nil => simp [strlen]
  | cons c cs ih =>
    simp only [strlen, List.length_cons]
    split <;> omega

theorem getD_ne_zero_of_lt_strlen (message : List Nat) :
    ∀ g, g < strlen message → message.getD g 0 ≠ 0 := by
  induction message with
  | nil => intro g hg; simp [strlen] at hg
  | cons c cs ih =>
    intro g hg
    simp only [strlen] at hg
    split at hg
    · omega
    · cases g with
      | zero => simpa using ‹¬ c = 0›
      | succ g =>
        have := ih g (by omega)
        simpa using this

theorem getD_lt_of_bytes (message : List Nat) (hbytes : ∀ b, b ∈ message → b < 256) (g : Nat) :
    message.getD g 0 < 256 := by
  rw [List.getD_eq_getElem?_getD]
  cases h : message[g]? with
  | none => simp
  | some b =>
    simp only [Option.getD_some]
    exact hbytes b (List.getElem?_mem h)

/-- The carrier bits within the message space after `insertMessage`, as a
stream: the message bits followed by zeros. -/
theorem insertMessage_carrierBit (message : List Nat) (image : Image)
    (numBits messageSpace : Nat) (h1 : 1 ≤ numBits) (h8 : numBits ≤ 8)
    (hfit : 8 * strlen message ≤ messageSpace)
    (hcap : messageSpace ≤ image.color.length * numBits) :
    ∃ image', insertMessage message image numBits messageSpace = some image' ∧
      image'.rows = image.rows ∧ image'.cols = image.cols ∧
      image'.color.length = image.color.length ∧
      ∀ j, j < messageSpace → carrierBit image'.color numBits j =
        (decide (j < 8 * strlen message) && messageBit message j) := by
  obtain ⟨image', hins, hrows, hcols, hlen, hbits, _⟩ :=
    insertMessage_spec message image numBits messageSpace h1 h8 hfit hcap
  refine ⟨image', hins, hrows, hcols, hlen, ?_⟩
  intro j hj
  have hmod := Nat.mod_lt j (show 0 < numBits by omega)
  have hsum : j / numBits * numBits + j % numBits = j := by
    rw [Nat.mul_comm]; exact Nat.div_add_mod j numBits
  unfold carrierBit
  rw [hbits (j / numBits) (j % numBits), hsum, if_pos ⟨hmod, hj⟩]

/-- A group of carrier bits that holds message bits or padding assembles to
the message byte, respectively to zero. -/
theorem carrierGroup_of_stream (message color : List Nat) (numBits messageSpace : Nat)
    (hbytes : ∀ b, b ∈ message → b < 256)
    (hstream : ∀ j, j < messageSpace → carrierBit color numBits j =
      (decide (j < 8 * strlen message) && messageBit message j))
    (g : Nat) (hg : 8 * (g + 1) ≤ messageSpace) :
    carrierGroup color numBits g = if g < strlen message then message.getD g 0 else 0 := by
  have hrhs : (if g < strlen message then message.getD g 0 else 0) < 256 := by
    split
    · exact getD_lt_of_bytes message hbytes g
    · norm_num
  apply byte_ext _ _ (carrierGroup_lt color numBits g) hrhs
  intro m hm
  rw [getBit_carrierGroup _ _ _ _ hm, hstream _ (by omega)]
  unfold messageBit
  rw [show (8 * g + m) / 8 = g by omega, show (8 * g + m) % 8 = m by omega]
  by_cases hlt : g < strlen message
  · rw [if_pos hlt]
    simp [show 8 * g + m < 8 * strlen message by omega]
  · rw [if_neg hlt]
    have : getBit 0 m = false := by
      rw [getBit_eq_testBit]; simp
    simp [show ¬ 8 * g + m < 8 * strlen message by omega, this]

theorem extractChar_outOfBounds (color : List Nat) (numBits : Nat) (h1 : 1 ≤ numBits)
    (todo : Nat) :
    ∀ (i j : Nat) (r : Reader), CursorAt numBits j r.pixelColor r.pixelBit →
      j ≤ color.length * numBits → color.length * numBits < j + todo →
      extractChar color numBits todo i r = none := by
  induction todo with
  | zero => intro i j r _ h1 h2; omega
  | succ todo ih =>
    intro i j r hat hle hgt
    by_cases hj : j < color.length * numBits
    · have hstep := loadBit_eq color numBits i j r h1 hat hj
      simp only [extractChar, hstep]
      exact ih (i + 1) (j + 1) _ (cursorAt_succ numBits j h1) (by omega) (by omega)
    · have hje : j = color.length * numBits := by omega
      obtain ⟨e1, e2⟩ := cursor_norm numBits j r.pixelColor r.pixelBit h1 hat
      have hdiv : j / numBits = color.length := by
        rw [hje]; exact Nat.mul_div_cancel _ (by omega)
      have hload : loadBit color numBits i r = none := by
        unfold loadBit
        simp only [e1, e2, hdiv]
        rw [List.getElem?_eq_none (Nat.le_refl _)]
      simp only [extractChar, hload]

theorem extractLoop_outOfBounds (color : List Nat) (numBits : Nat) (bitsMax : Int)
    (h1 : 1 ≤ numBits)
    (k : Nat) :
    ∀ (g fuel : Nat) (r : Reader), r.currentChar ≠ 0 → (r.bitsRead : Int) < bitsMax →
      CursorAt numBits (8 * g) r.pixelColor r.pixelBit →
      8 * (g + k) ≤ color.length * numBits →
      color.length * numBits < 8 * (g + k + 1) →
      (∀ t, t < k → carrierGroup color numBits (g + t) ≠ 0) →
      k < fuel →
      extractLoop color numBits bitsMax fuel r = .outOfBounds := by
  induction k with
  | zero =>
    intro g fuel r hcur hread hat hle hgt _ hfuel
    obtain ⟨fuel, rfl⟩ : ∃ f, fuel = f + 1 := ⟨fuel - 1, by omega⟩
    have hcond : (r.currentChar != 0 && decide ((r.bitsRead : Int) < bitsMax)) = true := by
      simp [hcur, hread]
    have hnone := extractChar_outOfBounds color numBits h1 BITS_PER_BYTE 0 (8 * g) r hat
      (by omega) (by simp only [BITS_PER_BYTE]; omega)
    simp only [extractLoop, hcond, if_true, hnone]
  | succ k ih =>
    intro g fuel r hcur hread hat hle hgt hnz hfuel
    obtain ⟨fuel, rfl⟩ : ∃ f, fuel = f + 1 := ⟨fuel - 1, by omega⟩
    obtain ⟨r1, hr1, hat1, _, hread1, hcur1⟩ :=
      extractChar_group color numBits h1 g r hat (by omega)
    have hg : carrierGroup color numBits g ≠ 0 := by
      have := hnz 0 (by omega)
      rwa [Nat.add_zero] at this
    have hcond : (r.currentChar != 0 && decide ((r.bitsRead : Int) < bitsMax)) = true := by
      simp [hcur, hread]
    simp only [extractLoop, hcond, if_true, hr1]
    exact ih (g + 1) fuel { r1 with message := r1.message ++ [r1.currentChar] }
      (by rw [hcur1]; exact hg) (by rw [hread1]; exact hread) hat1 (by omega) (by omega)
      (fun t ht => by
        have := hnz (t + 1) (by omega)
        rwa [show g + (t + 1) = g + 1 + t by omega] at this)
      (by omega)

/-- When the padding after the message does not make up a whole byte,
`extractMessage` runs into the end of the channel buffer. -/
theorem extractMessage_insertMessage_outOfBounds (message : List Nat) (image : Image)
    (numBits fuel : Nat) (h1 : 1 ≤ numBits) (h8 : numBits ≤ 8)
    (hlen : image.color.length = image.rows * image.cols * PIXEL_WIDTH)
    (hbytes : ∀ b, b ∈ message → b < 256)
    (hfit : 8 * strlen message ≤ image.rows * image.cols * PIXEL_WIDTH * numBits)
    (hwrap : 0 < wrapInt ((image.rows : Int) * image.cols * PIXEL_WIDTH * numBits))
    (hshort : image.rows * image.cols * PIXEL_WIDTH * numBits < 8 * (strlen message + 1))
    (hfuel : strlen message < fuel) :
    ∃ image', insertMessage message image numBits
        (image.rows * image.cols * PIXEL_WIDTH * numBits) = some image' ∧
      extractMessage fuel image' numBits = .outOfBounds := by
  obtain ⟨image', hins, hrows, hcols, hlen', hstream⟩ := insertMessage_carrierBit message image
    numBits (image.rows * image.cols * PIXEL_WIDTH * numBits) h1 h8 hfit (by rw [hlen])
  refine ⟨image', hins, ?_⟩
  have hloop := extractLoop_outOfBounds image'.color numBits
    (wrapInt ((image'.rows : Int) * image'.cols * PIXEL_WIDTH * numBits)) h1 (strlen message) 0
    fuel
    { message := [], currentChar := 32, pixelColor := 0, pixelBit := 0, bitsRead := 0 }
    (by decide) (by rw [hrows, hcols, Nat.cast_zero]; exact hwrap) ⟨by simp, by simp⟩
    (by rw [hlen', hlen]; omega) (by rw [hlen', hlen]; omega)
    (fun t ht => by
      rw [Nat.zero_add, carrierGroup_of_stream message image'.color numBits _ hbytes hstream t
        (by omega), if_pos ht]
      exact getD_ne_zero_of_lt_strlen message t ht)
    hfuel
  unfold extractMessage
  simp only [hloop]

theorem strlen_eq_length (message : List Nat) (h : 0 ∉ message) :
    strlen message = message.length := by
  induction message with
  | nil => rfl
  | cons c cs ih =>
    have hc : c ≠ 0 := fun e => h (by simp [e])
    have hcs : 0 ∉ cs := fun e => h (by simp [e])
    simp [strlen, hc, ih hcs]

/-- C1, at a failing input: the two-byte message "Hi" fits the 18 carrier bits
of a 2x1 image at `numBits = 3` with two bits to spare, `insertMessage`
embeds it, and `extractMessage` on the result does not return the message:
after the two message bytes its third pass reads past the sixth channel
byte. -/
theorem roundtrip_fails_without_room_for_terminator :
    8 * strlen [0x48, 0x69] ≤ 1 * 2 * PIXEL_WIDTH * 3 ∧
    insertMessage [0x48, 0x69] { rows := 1, cols := 2, color := [9, 8, 7, 6, 5, 4] } 3
        (1 * 2 * PIXEL_WIDTH * 3) =
      some { rows := 1, cols := 2, color := [8, 9, 5, 4, 6, 0] } ∧
    ∀ fuel, extractMessage (fuel + 3)
      { rows := 1, cols := 2, color := [8, 9, 5, 4, 6, 0] } 3 = .outOfBounds := by
  refine ⟨by decide, by decide, ?_⟩
  intro fuel
  rfl

/-- C9, on the code: for every `numBits` in [1,8], every image with
`rows, cols >= 1` and a buffer of `rows*cols*3` bytes, and every message of
bytes without a zero byte whose bit length `8*len(message)` equals the
capacity `rows*cols*3*numBits`, `insertMessage` succeeds, and `extractMessage`
on the result, allowed more than `len(message)` passes, does not stop when the
capacity is used up: it ends in a read outside the channel buffer.  (From
`2^31` carrier bits on the `int` product for `bitsMax` can be zero or
negative; the loop is then not entered and the empty string is returned,
which is not the message either.) -/
theorem exact_capacity_extraction_leaves_buffer (message : List Nat) (image : Image)
    (numBits fuel : Nat) (h1 : 1 ≤ numBits) (h8 : numBits ≤ 8)
    (hrows : 1 ≤ image.rows) (hcols : 1 ≤ image.cols)
    (hlen : image.color.length = image.rows * image.cols * PIXEL_WIDTH)
    (hbytes : ∀ b, b ∈ message → b < 256) (hnz : 0 ∉ message)
    (hexact : 8 * message.length = image.rows * image.cols * PIXEL_WIDTH * numBits)
    (hfuel : message.length < fuel) :
    ∃ image', insertMessage message image numBits
        (image.rows * image.cols * PIXEL_WIDTH * numBits) = some image' ∧
      extractMessage fuel image' numBits =
        (if 0 < wrapInt ((image.rows : Int) * image.cols * PIXEL_WIDTH * numBits) then
          .outOfBounds
        else .done [0]) ∧
      message ≠ [] := by
  have hs := strlen_eq_length message hnz
  have hpos : 0 < image.rows * image.cols * PIXEL_WIDTH * numBits := by
    have : 0 < image.rows * image.cols := Nat.mul_pos (by omega) (by omega)
    exact Nat.mul_pos (Nat.mul_pos this (by decide)) (by omega)
  have hne : message ≠ [] := by
    intro h
    rw [h] at hexact
    simp only [List.length_nil, Nat.mul_zero] at hexact
    omega
  by_cases hwrap : 0 < wrapInt ((image.rows : Int) * image.cols * PIXEL_WIDTH * numBits)
  · obtain ⟨image', hins, hout⟩ := extractMessage_insertMessage_outOfBounds message image
      numBits fuel h1 h8 hlen hbytes (by rw [hs]; omega) hwrap (by rw [hs]; omega)
      (by rw [hs]; exact hfuel)
    exact ⟨image', hins, by rw [if_pos hwrap]; exact hout, hne⟩
  · obtain ⟨image', hins, hrows', hcols', _⟩ := insertMessage_spec message image numBits
      (image.rows * image.cols * PIXEL_WIDTH * numBits) h1 h8 (by rw [hs]; omega)
      (by rw [hlen])
    refine ⟨image', hins, ?_, hne⟩
    rw [if_neg hwrap]
    apply extractMessage_of_bitsMax_nonpos
    rw [hrows', hcols']
    exact Int.not_lt.mp hwrap

theorem exact_capacity_extraction_leaves_buffer_witness :
    (1 ≤ 8 ∧ 8 ≤ 8) ∧ [255, 255, 255].length = 1 * 1 * PIXEL_WIDTH ∧
    8 * [0x41, 0x42, 0x43].length = 1 * 1 * PIXEL_WIDTH * 8 ∧
    ∃ image', insertMessage [0x41, 0x42, 0x43]
        { rows := 1, cols := 1, color := [255, 255, 255] } 8 (1 * 1 * PIXEL_WIDTH * 8) =
        some image' ∧
      extractMessage 4 image' 8 = .outOfBounds :=
  ⟨by decide, by decide, by decide,
    let ⟨image', hins, hout, _⟩ := exact_capacity_extraction_leaves_buffer [0x41, 0x42, 0x43]
      { rows := 1, cols := 1, color := [255, 255, 255] } 8 4 (by decide) (by decide)
      (by decide) (by decide) (by decide) (by decide) (by decide) (by decide) (by decide)
    ⟨image', hins, hout.trans (if_pos (by decide))⟩⟩

/-- C10, on the code: for a 3x1 image (9 channel bytes, capacity 9 bits at
`numBits = 1`) with any initial channel values and the message "A",
`insertMessage` succeeds and leaves 1,0,0,0,0,0,1,0 in bit 0 of channels 0..7
and 0 in the spare carrier bit, bit 0 of channel 8; `extractMessage` with
`numBits = 1` on the result does not return "A": its second pass reads
channel 9, outside the buffer. -/
theorem scenario_3x1_embeds_but_extraction_leaves_buffer (color : List Nat)
    (hlen : color.length = 9) (fuel : Nat) :
    ∃ image', insertMessage [0x41] { rows := 1, cols := 3, color := color } 1 9 = some image' ∧
      (List.range 9).map (fun c => getBit (image'.color.getD c 0) 0) =
        [true, false, false, false, false, false, true, false, false] ∧
      extractMessage (fuel + 2) image' 1 = .outOfBounds := by
  obtain ⟨image', hins, _, _, _, hstream⟩ := insertMessage_carrierBit [0x41]
    { rows := 1, cols := 3, color := color } 1 9 (by decide) (by decide) (by decide)
    (by simp only [hlen]; decide)
  obtain ⟨image'', hins', hoob⟩ := extractMessage_insertMessage_outOfBounds [0x41]
    { rows := 1, cols := 3, color := color } 1 (fuel + 2) (by decide) (by decide)
    (by simp only [hlen]; decide) (by decide)
    (by show 8 * strlen [0x41] ≤ 1 * 3 * PIXEL_WIDTH * 1; decide)
    (by
      show 0 < wrapInt (((1 : Nat) : Int) * ((3 : Nat) : Int) * (PIXEL_WIDTH : Int) *
        ((1 : Nat) : Int))
      decide)
    (by show 1 * 3 * PIXEL_WIDTH * 1 < 8 * (strlen [0x41] + 1); decide)
    (by simp [strlen])
  have himg : image'' = image' := by
    have h9 : (1 * 3 * PIXEL_WIDTH * 1 : Nat) = 9 := by decide
    rw [h9, hins] at hins'
    exact (Option.some.inj hins').symm
  rw [himg] at hoob
  refine ⟨image', hins, ?_, hoob⟩
  have hbit : ∀ c, c ∈ List.range 9 → getBit (image'.color.getD c 0) 0 =
      (decide (c < 8 * strlen [0x41]) && messageBit [0x41] c) := by
    intro c hc
    have := hstream c (List.mem_range.mp hc)
    simpa [carrierBit, Nat.mod_one] using this
  rw [List.map_congr_left hbit]
  decide

theorem scenario_3x1_embeds_but_extraction_leaves_buffer_witness :
    [255, 254, 7, 8, 100, 3, 2, 1, 255].length = 9 ∧
    ∃ image', insertMessage [0x41]
        { rows := 1, cols := 3, color := [255, 254, 7, 8, 100, 3, 2, 1, 255] } 1 9 =
        some image' ∧
      (List.range 9).map (fun c => getBit (image'.color.getD c 0) 0) =
        [true, false, false, false, false, false, true, false, false] ∧
      extractMessage (0 + 2) image' 1 = .outOfBounds :=
  ⟨by decide, scenario_3x1_embeds_but_extraction_leaves_buffer
    [255, 254, 7, 8, 100, 3, 2, 1, 255] (by decide) 0⟩

/-! ## Where extraction stops -/

/-- C11, on the code: for every image with `rows, cols >= 1`, a buffer of
`rows*cols*3` bytes and every `numBits` in [1,8], when no group of eight
carrier bits within the capacity `rows*cols*3*numBits` is zero,
`extractMessage`, allowed more than `capacity / 8` passes, does not stop when
the capacity is used up: it ends in a read of a channel index at or beyond
`rows*cols*3`.  (From `2^31` carrier bits on the `int` product for `bitsMax`
can be zero or negative; the loop is then not entered and the empty string is
returned.) -/
theorem extractMessage_reads_past_capacity (image : Image) (numBits fuel : Nat)
    (h1 : 1 ≤ numBits) (_h8 : numBits ≤ 8) (_hrows : 1 ≤ image.rows) (_hcols : 1 ≤ image.cols)
    (hlen : image.color.length = image.rows * image.cols * PIXEL_WIDTH)
    (hnz : ∀ g, 8 * (g + 1) ≤ image.rows * image.cols * PIXEL_WIDTH * numBits →
      carrierGroup image.color numBits g ≠ 0)
    (hfuel : image.rows * image.cols * PIXEL_WIDTH * numBits / 8 < fuel) :
    extractMessage fuel image numBits =
      if 0 < wrapInt ((image.rows : Int) * image.cols * PIXEL_WIDTH * numBits) then
        .outOfBounds
      else .done [0] := by
  by_cases hwrap : 0 < wrapInt ((image.rows : Int) * image.cols * PIXEL_WIDTH * numBits)
  · have hloop := extractLoop_outOfBounds image.color numBits
      (wrapInt ((image.rows : Int) * image.cols * PIXEL_WIDTH * numBits)) h1
      (image.rows * image.cols * PIXEL_WIDTH * numBits / 8) 0 fuel
      { message := [], currentChar := 32, pixelColor := 0, pixelBit := 0, bitsRead := 0 }
      (by decide) (by rw [Nat.cast_zero]; exact hwrap) ⟨by simp, by simp⟩
      (by rw [hlen]; omega) (by rw [hlen]; omega)
      (fun t ht => by rw [Nat.zero_add]; exact hnz t (by omega))
      hfuel
    rw [if_pos hwrap]
    unfold extractMessage
    simp only [hloop]
  · rw [if_neg hwrap]
    exact extractMessage_of_bitsMax_nonpos fuel image numBits (Int.not_lt.mp hwrap)

theorem extractMessage_reads_past_capacity_witness :
    (1 ≤ 8 ∧ 8 ≤ 8) ∧ [0x4F, 0x4B, 0x21].length = 1 * 1 * PIXEL_WIDTH ∧
    extractMessage 4 { rows := 1, cols := 1, color := [0x4F, 0x4B, 0x21] } 8 = .outOfBounds :=
  ⟨by decide, by decide,
    (extractMessage_reads_past_capacity { rows := 1, cols := 1, color := [0x4F, 0x4B, 0x21] } 8 4
      (by decide) (by decide) (by decide) (by decide) (by decide)
      (by
        intro g hg
        have hg3 : g < 3 := by
          have : 8 * (g + 1) ≤ 24 := hg
          omega
        interval_cases g <;> decide)
      (by decide)).trans (if_pos (by decide))⟩

/-- C16, at a failing input: a 1x1 image at `numBits = 3` has 9 carrier bits,
not a multiple of 8, and with all channel bytes `0xFF` its one whole group is
not zero.  `extractMessage` does not decode a final byte from the one carrier
bit that remains and end the loop: whatever number of passes it is allowed,
it does not return, and with two or more passes it reads channel 3, outside
the buffer. -/
theorem partial_byte_is_not_decoded :
    (1 * 1 * PIXEL_WIDTH * 3) % 8 ≠ 0 ∧
    carrierGroup [0xFF, 0xFF, 0xFF] 3 0 ≠ 0 ∧
    (∀ fuel, extractMessage (fuel + 2) { rows := 1, cols := 1, color := [0xFF, 0xFF, 0xFF] } 3 =
      .outOfBounds) ∧
    ∀ fuel out, extractMessage fuel { rows := 1, cols := 1, color := [0xFF, 0xFF, 0xFF] } 3 ≠
      .done out := by
  refine ⟨by decide, by decide, fun fuel => rfl, ?_⟩
  intro fuel out
  match fuel with
  | 0 =>
    have h : extractMessage 0 { rows := 1, cols := 1, color := [0xFF, 0xFF, 0xFF] } 3 =
        .outOfFuel := rfl
    rw [h]
    exact fun e => Outcome.noConfusion e
  | 1 =>
    have h : extractMessage 1 { rows := 1, cols := 1, color := [0xFF, 0xFF, 0xFF] } 3 =
        .outOfFuel := rfl
    rw [h]
    exact fun e => Outcome.noConfusion e
  | fuel + 2 =>
    have h : extractMessage (fuel + 2) { rows := 1, cols := 1, color := [0xFF, 0xFF, 0xFF] } 3 =
        .outOfBounds := rfl
    rw [h]
    exact fun e => Outcome.noConfusion e

/-! ## Frame conditions of the embedding -/

/-- A successful `storeBit` has accessed a channel index inside the buffer. -/
theorem storeBit_in_bounds (numBits : Nat) (s s' : Cursor) (v : Bool)
    (h : storeBit numBits s v = some s') :
    s'.pixelColor < s.color.length ∧ 1 ≤ s'.pixelBit ∧ s'.color.length = s.color.length := by
  unfold storeBit at h
  simp only at h
  split at h
  · exact absurd h (by simp)
  · rename_i ch hch
    injection h with h
    subst h
    obtain ⟨hlt, _⟩ := List.getElem?_eq_some.mp hch
    exact ⟨hlt, by simp, by simp⟩

theorem storeBits_pixelBit_pos (numBits : Nat) (bits : List Bool) :
    ∀ s s' : Cursor, storeBits numBits bits s = some s' → (bits ≠ [] ∨ 1 ≤ s.pixelBit) →
      1 ≤ s'.pixelBit := by
  induction bits with
  | nil =>
    intro s s' h hor
    simp only [storeBits, Option.some.injEq] at h
    subst h
    rcases hor with h | h
    · exact absurd rfl h
    · exact h
  | cons b bs ih =>
    intro s s' h _
    simp only [storeBits] at h
    cases hb : storeBit numBits s b with
    | none => rw [hb] at h; exact absurd h (by simp)
    | some s1 =>
      rw [hb] at h
      exact ih s1 s' h (Or.inr (storeBit_in_bounds numBits s s1 b hb).2.1)

/-- C12: for every `numBits` in [1,8], every buffer of `rows*cols*3` bytes and
every message with `8*len(message) <= totalCapacityBits = rows*cols*3*numBits`,
both loops of `insertMessage` run to their end without an access outside the
buffer (every `storeBit` finds its channel index below `rows*cols*3`, the
cursor ends on a channel index below `rows*cols*3`), the message loop writes
`8*len(message)` carrier bits and together with the padding loop exactly
`totalCapacityBits` carrier bits are written. -/
theorem insertMessage_stays_in_buffer (message : List Nat) (image : Image) (numBits : Nat)
    (h1 : 1 ≤ numBits) (h8 : numBits ≤ 8)
    (hlen : image.color.length = image.rows * image.cols * PIXEL_WIDTH)
    (hfit : 8 * strlen message ≤ image.rows * image.cols * PIXEL_WIDTH * numBits) :
    ∃ s s', insertChars numBits message (strlen message) 1 (message.getD 0 0)
        { color := image.color, pixelColor := 0, pixelBit := 0, bitsFilled := 0 } = some s ∧
      insertZeros numBits (image.rows * image.cols * PIXEL_WIDTH * numBits - s.bitsFilled) s =
        some s' ∧
      insertMessage message image numBits (image.rows * image.cols * PIXEL_WIDTH * numBits) =
        some { image with color := s'.color } ∧
      s.bitsFilled = 8 * strlen message ∧
      s'.bitsFilled = image.rows * image.cols * PIXEL_WIDTH * numBits ∧
      s'.color.length = image.rows * image.cols * PIXEL_WIDTH ∧
      (0 < image.rows * image.cols * PIXEL_WIDTH * numBits →
        s'.pixelColor < image.rows * image.cols * PIXEL_WIDTH) := by
  have hmsg := insertChars_eq numBits message (strlen message) 0
    { color := image.color, pixelColor := 0, pixelBit := 0, bitsFilled := 0 }
  simp only [Nat.zero_add, Nat.mul_zero] at hmsg
  obtain ⟨s, hs, hat, hslen, hsfill, _, _⟩ := storeBits_spec numBits h1 h8
    ((List.range' 0 (8 * strlen message)).map (messageBit message)) 0
    { color := image.color, pixelColor := 0, pixelBit := 0, bitsFilled := 0 }
    ⟨by simp, by simp⟩ (by simp only [List.length_map, List.length_range']; rw [hlen]; omega)
  simp only [List.length_map, List.length_range', Nat.zero_add] at hat hsfill
  obtain ⟨s', hs', hat', hslen', hsfill', _, _⟩ := storeBits_spec numBits h1 h8
    (List.replicate (image.rows * image.cols * PIXEL_WIDTH * numBits - 8 * strlen message) false)
    (8 * strlen message) s hat
    (by simp only [List.length_replicate]; rw [hslen]; simp only; rw [hlen]; omega)
  simp only [List.length_replicate] at hat' hsfill'
  have hcap : 8 * strlen message +
      (image.rows * image.cols * PIXEL_WIDTH * numBits - 8 * strlen message) =
      image.rows * image.cols * PIXEL_WIDTH * numBits := by omega
  rw [hcap] at hat'
  have hins : insertMessage message image numBits
      (image.rows * image.cols * PIXEL_WIDTH * numBits) = some { image with color := s'.color } := by
    unfold insertMessage
    simp only [hmsg, hs, hsfill]
    by_cases hgt : image.rows * image.cols * PIXEL_WIDTH * numBits > 8 * strlen message
    · rw [if_pos hgt, insertZeros_eq, hs']
    · rw [if_neg hgt]
      rw [show image.rows * image.cols * PIXEL_WIDTH * numBits - 8 * strlen message = 0 by omega]
        at hs'
      simp only [List.replicate_zero, storeBits, Option.some.injEq] at hs'
      rw [hs']
  refine ⟨s, s', by rw [hmsg, hs], by rw [hsfill, insertZeros_eq, hs'], hins, hsfill,
    by rw [hsfill', hsfill]; exact hcap, by rw [hslen', hslen]; exact hlen, ?_⟩
  intro hpos
  have hbit : 1 ≤ s'.pixelBit := by
    by_cases hgt : image.rows * image.cols * PIXEL_WIDTH * numBits > 8 * strlen message
    · refine storeBits_pixelBit_pos numBits _ s s' hs' (Or.inl ?_)
      intro he
      have := congrArg List.length he
      simp only [List.length_replicate, List.length_nil] at this
      omega
    · rw [show image.rows * image.cols * PIXEL_WIDTH * numBits - 8 * strlen message = 0 by omega]
        at hs'
      simp only [List.replicate_zero, storeBits, Option.some.injEq] at hs'
      rw [← hs']
      refine storeBits_pixelBit_pos numBits _ _ s hs (Or.inl ?_)
      intro he
      have := congrArg List.length he
      simp only [List.length_map, List.length_range', List.length_nil] at this
      omega
  obtain ⟨hsum, _⟩ := hat'
  have hmul : s'.pixelColor * numBits < image.rows * image.cols * PIXEL_WIDTH * numBits := by
    omega
  exact Nat.lt_of_mul_lt_mul_right hmul

theorem insertMessage_stays_in_buffer_witness :
    (1 ≤ 3 ∧ 3 ≤ 8) ∧ [9, 8, 7, 6, 5, 4].length = 1 * 2 * PIXEL_WIDTH ∧
    8 * strlen [0x4F, 0x4B] ≤ 1 * 2 * PIXEL_WIDTH * 3 ∧
    ∃ s s', insertChars 3 [0x4F, 0x4B] (strlen [0x4F, 0x4B]) 1 ([0x4F, 0x4B].getD 0 0)
        { color := [9, 8, 7, 6, 5, 4], pixelColor := 0, pixelBit := 0, bitsFilled := 0 } =
        some s ∧
      insertZeros 3 (1 * 2 * PIXEL_WIDTH * 3 - s.bitsFilled) s = some s' ∧
      insertMessage [0x4F, 0x4B] { rows := 1, cols := 2, color := [9, 8, 7, 6, 5, 4] } 3
        (1 * 2 * PIXEL_WIDTH * 3) = some { rows := 1, cols := 2, color := s'.color } ∧
      s.bitsFilled = 8 * strlen [0x4F, 0x4B] ∧
      s'.bitsFilled = 1 * 2 * PIXEL_WIDTH * 3 ∧
      s'.color.length = 1 * 2 * PIXEL_WIDTH ∧
      (0 < 1 * 2 * PIXEL_WIDTH * 3 → s'.pixelColor < 1 * 2 * PIXEL_WIDTH) :=
  ⟨by decide, by decide, by decide,
    insertMessage_stays_in_buffer [0x4F, 0x4B]
      { rows := 1, cols := 2, color := [9, 8, 7, 6, 5, 4] } 3 (by decide) (by decide)
      (by decide) (by decide)⟩

theorem div_two_pow_eq_of_high_bits (x y n : Nat) (hx : x < 256) (hy : y < 256)
    (h : ∀ m, n ≤ m → getBit x m = getBit y m) : x / 2 ^ n = y / 2 ^ n := by
  apply Nat.eq_of_testBit_eq
  intro i
  rw [← Nat.shiftRight_eq_div_pow, ← Nat.shiftRight_eq_div_pow, Nat.testBit_shiftRight,
    Nat.testBit_shiftRight]
  have := h (n + i) (by omega)
  rwa [getBit_eq_testBit, getBit_eq_testBit, Nat.mod_eq_of_lt hx, Nat.mod_eq_of_lt hy] at this

theorem near_of_div_eq (x y p : Nat) (hp : 0 < p) (h : x / p = y / p) :
    x < y + p ∧ y < x + p := by
  have ex := Nat.div_add_mod x p
  have ey := Nat.div_add_mod y p
  have mx := Nat.mod_lt x hp
  have my := Nat.mod_lt y hp
  rw [h] at ex
  generalize p * (y / p) = t at ex ey
  omega

/-- C17: for every `numBits` in [1,8], every buffer of `rows*cols*3` bytes and
every message with `8*len(message) <= capacity`, `insertMessage` preserves the
length of the buffer and the high `8-numBits` bits of every channel byte: for
every channel index `c`, `new[c] div 2^numBits == old[c] div 2^numBits`, so
each channel value changes by less than `2^numBits`. -/
theorem insertMessage_preserves_high_bits (message : List Nat) (image : Image) (numBits : Nat)
    (h1 : 1 ≤ numBits) (h8 : numBits ≤ 8)
    (hlen : image.color.length = image.rows * image.cols * PIXEL_WIDTH)
    (hbytes : ∀ b, b ∈ image.color → b < 256)
    (hfit : 8 * strlen message ≤ image.rows * image.cols * PIXEL_WIDTH * numBits) :
    ∃ image', insertMessage message image numBits
        (image.rows * image.cols * PIXEL_WIDTH * numBits) = some image' ∧
      image'.color.length = image.color.length ∧
      ∀ c, image'.color.getD c 0 / 2 ^ numBits = image.color.getD c 0 / 2 ^ numBits ∧
        image'.color.getD c 0 < image.color.getD c 0 + 2 ^ numBits ∧
        image.color.getD c 0 < image'.color.getD c 0 + 2 ^ numBits := by
  obtain ⟨image', hins, _, _, hlen', hbits, hbyte⟩ := insertMessage_spec message image numBits
    (image.rows * image.cols * PIXEL_WIDTH * numBits) h1 h8 hfit (by rw [hlen])
  refine ⟨image', hins, hlen', ?_⟩
  intro c
  have hdiv : image'.color.getD c 0 / 2 ^ numBits = image.color.getD c 0 / 2 ^ numBits := by
    rcases hbyte c with h | h
    · rw [h]
    · apply div_two_pow_eq_of_high_bits _ _ _ h (getD_lt_of_bytes image.color hbytes c)
      intro m hm
      rw [hbits c m, if_neg (by omega)]
  exact ⟨hdiv, near_of_div_eq _ _ _ (Nat.pos_pow_of_pos numBits (by decide)) hdiv⟩

theorem insertMessage_preserves_high_bits_witness :
    (1 ≤ 3 ∧ 3 ≤ 8) ∧ [201, 118, 47, 86, 255, 0].length = 1 * 2 * PIXEL_WIDTH ∧
    8 * strlen [0x41] ≤ 1 * 2 * PIXEL_WIDTH * 3 ∧
    ∃ image', insertMessage [0x41] { rows := 1, cols := 2, color := [201, 118, 47, 86, 255, 0] } 3
        (1 * 2 * PIXEL_WIDTH * 3) = some image' ∧
      image'.color.length = [201, 118, 47, 86, 255, 0].length ∧
      ∀ c, image'.color.getD c 0 / 2 ^ 3 = [201, 118, 47, 86, 255, 0].getD c 0 / 2 ^ 3 ∧
        image'.color.getD c 0 < [201, 118, 47, 86, 255, 0].getD c 0 + 2 ^ 3 ∧
        [201, 118, 47, 86, 255, 0].getD c 0 < image'.color.getD c 0 + 2 ^ 3 :=
  ⟨by decide, by decide, by decide,
    insertMessage_preserves_high_bits [0x41]
      { rows := 1, cols := 2, color := [201, 118, 47, 86, 255, 0] } 3
      (by decide) (by decide) (by decide) (by decide) (by decide)⟩

/-! ## Round trip and re-embedding -/

theorem map_getD_range (message : List Nat) :
    (List.range' 0 message.length).map (fun g => message.getD g 0) = message := by
  apply List.ext_getElem
  · simp
  · intro i h1 h2
    simp [List.getD_eq_getElem?_getD, List.getElem?_eq_getElem h2]

/-- C18, as amended: for every `numBits` in [1,8], every buffer of
`rows*cols*3` bytes whose capacity `rows*cols*3*numBits` is below `2^31`, so
that it fits the `int` `bitsMax`, and every message of bytes without a zero
byte that leaves room for a full terminator,
`8*(len(message)+1) <= rows*cols*3*numBits`, `insertMessage` succeeds, and
`extractMessage` on the result, allowed more than
`len(message)` passes, reads only channel indices below `rows*cols*3` and
returns the message followed by the zero byte and the terminator, that is,
exactly the string `message`. -/
theorem extract_after_insert_returns_message (message : List Nat) (image : Image)
    (numBits : Nat) (h1 : 1 ≤ numBits) (h8 : numBits ≤ 8)
    (hlen : image.color.length = image.rows * image.cols * PIXEL_WIDTH)
    (hint : image.rows * image.cols * PIXEL_WIDTH * numBits < 2 ^ 31)
    (hbytes : ∀ b, b ∈ message → b < 256) (hnz : 0 ∉ message)
    (hroom : 8 * (message.length + 1) ≤ image.rows * image.cols * PIXEL_WIDTH * numBits) :
    ∃ image', insertMessage message image numBits
        (image.rows * image.cols * PIXEL_WIDTH * numBits) = some image' ∧
      (∀ fuel, message.length < fuel →
        extractMessage fuel image' numBits = .done (message ++ [0, 0])) ∧
      cString (message ++ [0, 0]) = message := by
  have hs := strlen_eq_length message hnz
  obtain ⟨image', hins, hrows, hcols, hlen', hstream⟩ := insertMessage_carrierBit message image
    numBits (image.rows * image.cols * PIXEL_WIDTH * numBits) h1 h8 (by rw [hs]; omega)
    (by rw [hlen])
  refine ⟨image', hins, ?_, cString_append_zero message [0] hnz⟩
  intro fuel hfuel
  have hgroup : ∀ g, g ≤ message.length → carrierGroup image'.color numBits g =
      if g < message.length then message.getD g 0 else 0 := by
    intro g hg
    rw [carrierGroup_of_stream message image'.color numBits _ hbytes hstream g (by omega), hs]
  obtain ⟨r', hr', hmsg'⟩ := extractLoop_spec image'.color numBits
    (wrapInt ((image'.rows : Int) * image'.cols * PIXEL_WIDTH * numBits)) h1 message.length 0 fuel
    { message := [], currentChar := 32, pixelColor := 0, pixelBit := 0, bitsRead := 0 }
    (by decide) (by rw [hrows, hcols]; exact bitsMax_pos _ _ _ hint (by omega))
    ⟨by simp, by simp⟩
    (by rw [hlen', hlen]; omega)
    (fun t ht => by
      rw [Nat.zero_add, hgroup t (by omega), if_pos ht]
      exact getD_ne_zero_of_lt_strlen message t (by rw [hs]; exact ht))
    (by rw [Nat.zero_add, hgroup _ (Nat.le_refl _), if_neg (by omega)]) hfuel
  have hmap : (List.range' 0 message.length).map (carrierGroup image'.color numBits) =
      message := by
    have hcongr : (List.range' 0 message.length).map (carrierGroup image'.color numBits) =
        (List.range' 0 message.length).map (fun g => message.getD g 0) := by
      apply List.map_congr_left
      intro g hg
      have hg' : g < message.length := by
        have := List.mem_range'_1.mp hg
        omega
      rw [hgroup g (by omega), if_pos hg']
    rw [hcongr, map_getD_range]
  unfold extractMessage
  simp only [hr', hmsg', hmap, List.nil_append, List.append_assoc, List.singleton_append]

theorem extract_after_insert_returns_message_witness :
    (1 ≤ 3 ∧ 3 ≤ 8) ∧ [201, 118, 47, 86, 255, 0].length = 1 * 2 * PIXEL_WIDTH ∧
    1 * 2 * PIXEL_WIDTH * 3 < 2 ^ 31 ∧
    8 * ([0x41].length + 1) ≤ 1 * 2 * PIXEL_WIDTH * 3 ∧
    ∃ image', insertMessage [0x41] { rows := 1, cols := 2, color := [201, 118, 47, 86, 255, 0] } 3
        (1 * 2 * PIXEL_WIDTH * 3) = some image' ∧
      (∀ fuel, [0x41].length < fuel →
        extractMessage fuel image' 3 = .done ([0x41] ++ [0, 0])) ∧
      cString ([0x41] ++ [0, 0]) = [0x41] :=
  ⟨by decide, by decide, by decide, by decide,
    extract_after_insert_returns_message [0x41]
      { rows := 1, cols := 2, color := [201, 118, 47, 86, 255, 0] } 3
      (by decide) (by decide) (by decide) (by decide) (by decide) (by decide) (by decide)⟩

theorem list_ext_getD (xs ys : List Nat) (hlen : xs.length = ys.length)
    (h : ∀ c, xs.getD c 0 = ys.getD c 0) : xs = ys := by
  apply List.ext_getElem hlen
  intro i h1 h2
  have := h i
  simpa [List.getD_eq_getElem?_getD, List.getElem?_eq_getElem h1,
    List.getElem?_eq_getElem h2] using this

/-- C19: for every `numBits` in [1,8], every buffer of `rows*cols*3` bytes and
all messages `m1`, `m2` that each fit the capacity `rows*cols*3*numBits`,
embedding `m2` into the result of embedding `m1` gives the same image as
embedding `m2` into the original image: the second `insertMessage` at the
same `numBits` and capacity replaces the first completely. -/
theorem insertMessage_replaces_earlier_message (m1 m2 : List Nat) (image : Image)
    (numBits : Nat) (h1 : 1 ≤ numBits) (h8 : numBits ≤ 8)
    (hlen : image.color.length = image.rows * image.cols * PIXEL_WIDTH)
    (hbytes : ∀ b, b ∈ image.color → b < 256)
    (hfit1 : 8 * strlen m1 ≤ image.rows * image.cols * PIXEL_WIDTH * numBits)
    (hfit2 : 8 * strlen m2 ≤ image.rows * image.cols * PIXEL_WIDTH * numBits) :
    ∃ first second direct,
      insertMessage m1 image numBits (image.rows * image.cols * PIXEL_WIDTH * numBits) =
        some first ∧
      insertMessage m2 first numBits (first.rows * first.cols * PIXEL_WIDTH * numBits) =
        some second ∧
      insertMessage m2 image numBits (image.rows * image.cols * PIXEL_WIDTH * numBits) =
        some direct ∧
      second = direct := by
  obtain ⟨first, hins1, hrows1, hcols1, hlen1, hbits1, hbyte1⟩ := insertMessage_spec m1 image
    numBits (image.rows * image.cols * PIXEL_WIDTH * numBits) h1 h8 hfit1 (by rw [hlen])
  obtain ⟨second, hins12, hrows12, hcols12, hlen12, hbits12, hbyte12⟩ := insertMessage_spec m2
    first numBits (first.rows * first.cols * PIXEL_WIDTH * numBits) h1 h8
    (by rw [hrows1, hcols1]; exact hfit2) (by rw [hrows1, hcols1, hlen1, hlen])
  obtain ⟨direct, hins2, hrows2, hcols2, hlen2, hbits2, hbyte2⟩ := insertMessage_spec m2 image
    numBits (image.rows * image.cols * PIXEL_WIDTH * numBits) h1 h8 hfit2 (by rw [hlen])
  refine ⟨first, second, direct, hins1, hins12, hins2, ?_⟩
  have hold : ∀ c, image.color.getD c 0 < 256 := getD_lt_of_bytes image.color hbytes
  have hfirst : ∀ c, first.color.getD c 0 < 256 := by
    intro c
    rcases hbyte1 c with h | h
    · rw [h]; exact hold c
    · exact h
  have hsecond : ∀ c, second.color.getD c 0 < 256 := by
    intro c
    rcases hbyte12 c with h | h
    · rw [h]; exact hfirst c
    · exact h
  have hdirect : ∀ c, direct.color.getD c 0 < 256 := by
    intro c
    rcases hbyte2 c with h | h
    · rw [h]; exact hold c
    · exact h
  have hcolor : second.color = direct.color := by
    apply list_ext_getD _ _ (by rw [hlen12, hlen1, hlen2])
    intro c
    apply byte_ext _ _ (hsecond c) (hdirect c)
    intro m _
    rw [hbits12 c m, hbits2 c m, hrows1, hcols1]
    by_cases hin : m < numBits ∧
        c * numBits + m < image.rows * image.cols * PIXEL_WIDTH * numBits
    · rw [if_pos hin, if_pos hin]
    · rw [if_neg hin, if_neg hin, hbits1 c m, if_neg hin]
  cases second with
  | mk r2 c2 col2 =>
    cases direct with
    | mk r3 c3 col3 =>
      simp only at hrows12 hcols12 hrows2 hcols2 hcolor
      simp only [Image.mk.injEq]
      exact ⟨by rw [hrows12, hrows1, hrows2], by rw [hcols12, hcols1, hcols2], hcolor⟩

theorem insertMessage_replaces_earlier_message_witness :
    (1 ≤ 3 ∧ 3 ≤ 8) ∧ [201, 118, 47, 86, 255, 0].length = 1 * 2 * PIXEL_WIDTH ∧
    8 * strlen [0x48, 0x69] ≤ 1 * 2 * PIXEL_WIDTH * 3 ∧
    8 * strlen [0x21] ≤ 1 * 2 * PIXEL_WIDTH * 3 ∧
    ∃ first second direct,
      insertMessage [0x48, 0x69] { rows := 1, cols := 2, color := [201, 118, 47, 86, 255, 0] } 3
        (1 * 2 * PIXEL_WIDTH * 3) = some first ∧
      insertMessage [0x21] first 3 (first.rows * first.cols * PIXEL_WIDTH * 3) = some second ∧
      insertMessage [0x21] { rows := 1, cols := 2, color := [201, 118, 47, 86, 255, 0] } 3
        (1 * 2 * PIXEL_WIDTH * 3) = some direct ∧
      second = direct :=
  ⟨by decide, by decide, by decide, by decide,
    insertMessage_replaces_earlier_message [0x48, 0x69] [0x21]
      { rows := 1, cols := 2, color := [201, 118, 47, 86, 255, 0] } 3
      (by decide) (by decide) (by decide) (by decide) (by decide) (by decide)⟩

/-! ## Reading and writing images, and the embed tool -/

/-- An image returned by `readImage` has positive dimensions and a channel
buffer of exactly `rows * cols * PIXEL_WIDTH` bytes. -/
theorem readImage_ret_valid (file : Option (List Nat)) (image : Image)
    (h : readImage file = .ret image) :
    1 ≤ image.rows ∧ 1 ≤ image.cols ∧
      image.color.length = image.rows * image.cols * PIXEL_WIDTH := by
  unfold readImage at h
  cases file with
  | none => exact absurd h (by simp)
  | some bytes =>
    simp only at h
    split at h
    · exact absurd h (by simp)
    · split at h
      · exact absurd h (by simp)
      · rename_i hok
        simp only [not_or, not_not, not_lt] at hok
        obtain ⟨_, _, hw, hh, _, hafter⟩ := hok
        injection h with h
        subst h
        simp only [List.length_take, List.length_drop]
        obtain ⟨w, hw'⟩ := Int.eq_ofNat_of_zero_le (show 0 ≤ (scanHeader bytes).width by omega)
        obtain ⟨t, ht'⟩ := Int.eq_ofNat_of_zero_le (show 0 ≤ (scanHeader bytes).height by omega)
        rw [hw', ht'] at hafter ⊢
        rw [hw'] at hw
        rw [ht'] at hh
        have hprod : ((w : Int) * (t : Int) * (PIXEL_WIDTH : Int)).toNat = w * t * PIXEL_WIDTH := by
          rw [← Int.natCast_mul, ← Int.natCast_mul, Int.toNat_ofNat]
        rw [hprod]
        simp only [Int.toNat_ofNat]
        refine ⟨by omega, by omega, ?_⟩
        have hnat : bytes.length - (bytes.length - (scanHeader bytes).rest.length) =
            w * t * PIXEL_WIDTH := by
          have : ((w : Int) * (t : Int) * (PIXEL_WIDTH : Int)) = ((w * t * PIXEL_WIDTH : Nat) : Int) := by
            push_cast; ring
          rw [this] at hafter
          omega
        rw [hnat, Nat.min_self, Nat.mul_comm t w]


/-- C13, as amended: for the embed tool invoked with four arguments
(`argc = 5`), `bits` in [1,8], an input file that `readImage` accepts and
whose capacity `rows*cols*3*bits` is below `2^31`, a message file and an
output file that can be opened, `len(message)` being the number of bytes of
the message file in front of its first zero byte: `main` ends with status 1
without calling `insertMessage`, with the image as read and no output
written, if and only if `8*len(message) > rows*cols*3*bits`; otherwise it
embeds the message, writes the embedded image and ends with status 0.  With a
wrong argument count, or with `bits` outside [1,8], it ends with status 1
before any call that opens a file. -/
theorem main_checks_capacity_before_embedding (bits : Int)
    (inputImage : Option (List Nat)) (message : List Nat) (image : Image)
    (hlo : 1 ≤ bits) (hhi : bits ≤ 8) (himage : readImage inputImage = .ret image)
    (hint : image.rows * image.cols * PIXEL_WIDTH * bits.toNat < 2 ^ 31) :
    (∃ run, Conceal.main 5 bits inputImage (some message) true = some run ∧
      ((run.status = 1 ∧ Callee.insertMessage ∉ run.calls ∧ run.image = some image ∧
          run.output = none) ↔
        8 * strlen message > image.rows * image.cols * PIXEL_WIDTH * bits.toNat) ∧
      (¬ 8 * strlen message > image.rows * image.cols * PIXEL_WIDTH * bits.toNat →
        run.status = 0 ∧
        ∃ image' bytes,
          insertMessage message image bits.toNat
            (image.rows * image.cols * PIXEL_WIDTH * bits.toNat) = some image' ∧
          writeImage image' true = .ret bytes ∧
          run.image = some image' ∧ run.output = some bytes)) ∧
    (∀ argc b input msg opens, argc ≠ 5 →
      Conceal.main argc b input msg opens =
        some { status := 1, report := some .usage, calls := [], image := none,
               output := none }) ∧
    (∀ b input msg opens, b < 1 ∨ 8 < b →
      Conceal.main 5 b input msg opens =
        some { status := 1, report := some .invalidBits, calls := [], image := none,
               output := none }) := by
  refine ⟨?_, ?_, ?_⟩
  · have hargs : ¬ (5 : Nat) ≠ Conceal.NUMARGS := by decide
    have hbits : ¬ (bits < Conceal.MINBITS ∨ bits > Conceal.MAXBITS) := by
      simp only [Conceal.MINBITS, Conceal.MAXBITS]; omega
    obtain ⟨hrows, hcols, hlen⟩ := readImage_ret_valid inputImage image himage
    have hnum : 1 ≤ bits.toNat ∧ bits.toNat ≤ 8 := by omega
    have hspace : wrapInt ((image.rows : Int) * image.cols * PIXEL_WIDTH * bits) =
        ((image.rows * image.cols * PIXEL_WIDTH * bits.toNat : Nat) : Int) := by
      rw [← wrapInt_capacity _ _ _ hint, Int.toNat_of_nonneg (by omega)]
    have hmod : ((image.rows * image.cols * PIXEL_WIDTH * bits.toNat : Nat) : Int) %
        18446744073709551616 =
        ((image.rows * image.cols * PIXEL_WIDTH * bits.toNat : Nat) : Int) := by
      omega
    by_cases hover : 8 * strlen message > image.rows * image.cols * PIXEL_WIDTH * bits.toNat
    · refine ⟨{ status := 1, report := some .tooFewPixels, calls := [.readImage, .readMessage],
                image := some image, output := none }, ?_, ?_, fun h => absurd hover h⟩
      · simp only [Conceal.main, hargs, hbits, if_false, himage, readMessage, BITS_PER_BYTE,
          hspace, hmod]
        rw [if_pos (by omega)]
      · exact ⟨fun _ => hover, fun _ => ⟨rfl, by simp, rfl, rfl⟩⟩
    · obtain ⟨image', hins, hrows', hcols', hlen', _, _⟩ := insertMessage_spec message image
        bits.toNat (image.rows * image.cols * PIXEL_WIDTH * bits.toNat) hnum.1 hnum.2
        (by omega) (by rw [hlen])
      have hwrite : ∃ bytes, writeImage image' true = .ret bytes := by
        unfold writeImage
        simp only [Bool.not_true, Bool.false_eq_true, if_false]
        rw [if_neg (by rw [hlen', hlen, hrows', hcols', Nat.mul_comm image.cols]; omega)]
        exact ⟨_, rfl⟩
      obtain ⟨bytes, hbytes⟩ := hwrite
      refine ⟨{ status := 0, report := none,
                calls := [.readImage, .readMessage, .insertMessage, .writeImage],
                image := some image', output := some bytes }, ?_, ?_, fun _ =>
                ⟨rfl, image', bytes, hins, hbytes, rfl, rfl⟩⟩
      · simp only [Conceal.main, hargs, hbits, if_false, himage, readMessage, BITS_PER_BYTE,
          hspace, hmod]
        rw [if_neg (by omega)]
        simp only [Int.toNat_ofNat, hins, hbytes]
      · exact ⟨fun h => absurd h.1 (by simp), fun h => absurd h hover⟩
  · intro argc b input msg opens hargc
    have : argc ≠ Conceal.NUMARGS := hargc
    simp only [Conceal.main, this, ne_eq, not_false_eq_true, if_true]
  · intro b input msg opens hb
    have hargs : ¬ (5 : Nat) ≠ Conceal.NUMARGS := by decide
    have hbits : b < Conceal.MINBITS ∨ b > Conceal.MAXBITS := by
      simp only [Conceal.MINBITS, Conceal.MAXBITS]; omega
    simp only [Conceal.main, hargs, hbits, if_false, if_true]


theorem main_checks_capacity_before_embedding_witness :
    ((1 : Int) ≤ 1 ∧ (1 : Int) ≤ 8) ∧
    readImage (some ([80, 54, 10, 51, 32, 49, 10, 50, 53, 53, 10] ++
      [255, 254, 7, 8, 100, 3, 2, 1, 255])) =
      .ret { rows := 1, cols := 3, color := [255, 254, 7, 8, 100, 3, 2, 1, 255] } ∧
    1 * 3 * PIXEL_WIDTH * (1 : Int).toNat < 2 ^ 31 ∧
    ∃ run, Conceal.main 5 1 (some ([80, 54, 10, 51, 32, 49, 10, 50, 53, 53, 10] ++
        [255, 254, 7, 8, 100, 3, 2, 1, 255])) (some [0x41, 0x42]) true = some run ∧
      ((run.status = 1 ∧ Callee.insertMessage ∉ run.calls ∧
          run.image = some { rows := 1, cols := 3, color := [255, 254, 7, 8, 100, 3, 2, 1, 255] } ∧
          run.output = none) ↔
        8 * strlen [0x41, 0x42] > 1 * 3 * PIXEL_WIDTH * (1 : Int).toNat) :=
  ⟨by decide, by decide, by decide,
    let ⟨run, hrun, hiff, _⟩ := (main_checks_capacity_before_embedding 1
      (some ([80, 54, 10, 51, 32, 49, 10, 50, 53, 53, 10] ++ [255, 254, 7, 8, 100, 3, 2, 1, 255]))
      [0x41, 0x42] { rows := 1, cols := 3, color := [255, 254, 7, 8, 100, 3, 2, 1, 255] }
      (by decide) (by decide) (by decide) (by decide)).1
    ⟨run, hrun, hiff⟩⟩

/-- C14, at failing inputs.  The first file is the header `P6\n2 1\n255\n`
followed by six bytes of which the first is a blank: the scan yields all four
fields, the tag is "P6", width 2, height 1, max-intensity 255, and
`2*1*3 = 6` bytes follow the header, yet `readImage` reports an invalid image,
because the last directive of the scan reads the blank and `ftell` counts it
to the header.  The second file has the tag "P66": the scan stores four bytes
in the three bytes of `format`, which is undefined, where the file is to be
rejected. -/
theorem readImage_rejects_valid_file :
    [80, 54, 10, 50, 32, 49, 10, 50, 53, 53, 10] =
      FORMAT ++ [10] ++ decimal 2 ++ [32] ++ decimal 1 ++ [10] ++ decimal MAX_COLOR ++ [10] ∧
    [32, 1, 2, 3, 4, 5].length = 2 * 1 * PIXEL_WIDTH ∧
    (scanHeader ([80, 54, 10, 50, 32, 49, 10, 50, 53, 53, 10] ++ [32, 1, 2, 3, 4, 5])).headerMatches =
      HEADERARGS ∧
    (scanHeader ([80, 54, 10, 50, 32, 49, 10, 50, 53, 53, 10] ++ [32, 1, 2, 3, 4, 5])).format =
      FORMAT ∧
    (scanHeader ([80, 54, 10, 50, 32, 49, 10, 50, 53, 53, 10] ++ [32, 1, 2, 3, 4, 5])).width = 2 ∧
    (scanHeader ([80, 54, 10, 50, 32, 49, 10, 50, 53, 53, 10] ++ [32, 1, 2, 3, 4, 5])).height = 1 ∧
    (scanHeader ([80, 54, 10, 50, 32, 49, 10, 50, 53, 53, 10] ++ [32, 1, 2, 3, 4, 5])).maxIntensity =
      MAX_COLOR ∧
    readImage (some ([80, 54, 10, 50, 32, 49, 10, 50, 53, 53, 10] ++ [32, 1, 2, 3, 4, 5])) =
      .exit 1 .invalidImage ∧
    readImage (some ([80, 54, 54, 10, 49, 32, 49, 10, 50, 53, 53, 10] ++ [1, 2, 3])) =
      .undefined := by
  decide

/-- C15, at a failing input: for the 1x1 image whose first channel byte is the
newline `0x0A`, `writeImage` emits the header `P6\n1 1\n255\n` followed by the
three channel bytes, and `readImage` applied to these bytes does not return
the image: its scan reads the newline channel byte as white space after the
header, finds two bytes instead of three and reports an invalid image.  The
same happens with a blank `0x20` as first channel byte. -/
theorem readImage_rejects_written_image :
    writeImage { rows := 1, cols := 1, color := [10, 200, 100] } true =
      .ret ([80, 54, 10, 49, 32, 49, 10, 50, 53, 53, 10] ++ [10, 200, 100]) ∧
    readImage (some ([80, 54, 10, 49, 32, 49, 10, 50, 53, 53, 10] ++ [10, 200, 100])) =
      .exit 1 .invalidImage ∧
    writeImage { rows := 1, cols := 1, color := [32, 200, 100] } true =
      .ret ([80, 54, 10, 49, 32, 49, 10, 50, 53, 53, 10] ++ [32, 200, 100]) ∧
    readImage (some ([80, 54, 10, 49, 32, 49, 10, 50, 53, 53, 10] ++ [32, 200, 100])) =
      .exit 1 .invalidImage ∧
    readImage (some ([80, 54, 10, 49, 32, 49, 10, 50, 53, 53, 10] ++ [33, 200, 100])) =
      .ret { rows := 1, cols := 1, color := [33, 200, 100] } := by
  decide


/-- What `readImage` decides on a file whose first token fits the array
`format`: it reports an invalid image exactly when one of the six tests of
its condition holds, the bytes after the header being counted from where the
scan stopped, and it returns an image otherwise. -/
theorem readImage_decides (bytes : List Nat)
    (hfits : (scanHeader bytes).format.length ≤ FORMATLEN) :
    (readImage (some bytes) = .exit 1 .invalidImage ↔
      ((scanHeader bytes).headerMatches ≠ HEADERARGS ∨ cString (scanHeader bytes).format ≠ FORMAT ∨
        (scanHeader bytes).width < 1 ∨ (scanHeader bytes).height < 1 ∨
        (scanHeader bytes).maxIntensity ≠ MAX_COLOR ∨
        (bytes.length : Int) - ((bytes.length - (scanHeader bytes).rest.length : Nat) : Int) ≠
          (scanHeader bytes).width * (scanHeader bytes).height * PIXEL_WIDTH)) ∧
    (readImage (some bytes) ≠ .exit 1 .invalidImage →
      ∃ image, readImage (some bytes) = .ret image ∧
        (image.rows : Int) = (scanHeader bytes).height ∧
        (image.cols : Int) = (scanHeader bytes).width ∧
        image.color.length = image.rows * image.cols * PIXEL_WIDTH) := by
  have hnot : ¬ (scanHeader bytes).format.length > FORMATLEN := by omega
  by_cases hbad : (scanHeader bytes).headerMatches ≠ HEADERARGS ∨
      cString (scanHeader bytes).format ≠ FORMAT ∨
      (scanHeader bytes).width < 1 ∨ (scanHeader bytes).height < 1 ∨
      (scanHeader bytes).maxIntensity ≠ MAX_COLOR ∨
      (bytes.length : Int) - ((bytes.length - (scanHeader bytes).rest.length : Nat) : Int) ≠
        (scanHeader bytes).width * (scanHeader bytes).height * PIXEL_WIDTH
  · have hrej : readImage (some bytes) = .exit 1 .invalidImage := by
      unfold readImage
      simp only [hnot, if_false]
      rw [if_pos hbad]
    exact ⟨⟨fun _ => hbad, fun _ => hrej⟩, fun h => absurd hrej h⟩
  · have hret : readImage (some bytes) = .ret
        { rows := (scanHeader bytes).height.toNat
          cols := (scanHeader bytes).width.toNat
          color := (bytes.drop (bytes.length - (scanHeader bytes).rest.length)).take
            ((scanHeader bytes).width * (scanHeader bytes).height * PIXEL_WIDTH).toNat } := by
      unfold readImage
      simp only [hnot, if_false]
      rw [if_neg hbad]
    have hvalid := readImage_ret_valid _ _ hret
    simp only [not_or, not_not, not_lt] at hbad
    refine ⟨⟨fun h => ?_, fun h => absurd h ?_⟩, fun _ => ⟨_, hret, ?_, ?_, hvalid.2.2⟩⟩
    · rw [hret] at h
      exact absurd h (by simp)
    · simp only [not_or, not_not, not_lt]
      exact hbad
    · exact Int.toNat_of_nonneg (by omega)
    · exact Int.toNat_of_nonneg (by omega)

/-! ## Reading back a written image -/

theorem isspace_of_isdigit (c : Nat) (h : isdigit c = true) : isspace c = false := by
  simp only [isdigit, Bool.and_eq_true, decide_eq_true_eq] at h
  simp only [isspace, Bool.or_eq_false_iff, Bool.and_eq_false_iff, decide_eq_false_iff_not,
    beq_eq_false_iff_ne, ne_eq]
  omega

theorem isdigit_digit (n : Nat) (h : n < 10) : isdigit (48 + n) = true := by
  simp only [isdigit, Bool.and_eq_true, decide_eq_true_eq]
  omega

theorem decimalDigits_head (fuel : Nat) :
    ∀ n, ∃ d ds, decimalDigits (fuel + 1) n = d :: ds ∧ isdigit d = true := by
  induction fuel with
  | zero =>
    intro n
    by_cases hn : n < 10
    · exact ⟨48 + n, [], by simp [decimalDigits, hn], isdigit_digit n hn⟩
    · exact ⟨48 + n % 10, [], by simp [decimalDigits, hn], isdigit_digit _ (by omega)⟩
  | succ fuel ih =>
    intro n
    by_cases hn : n < 10
    · exact ⟨48 + n, [], by simp [decimalDigits, hn], isdigit_digit n hn⟩
    · obtain ⟨d, ds, hd, hdig⟩ := ih (n / 10)
      refine ⟨d, ds ++ [48 + n % 10], ?_, hdig⟩
      rw [decimalDigits, if_neg hn, hd]
      rfl

theorem scanDigits_decimalDigits (fuel : Nat) :
    ∀ n acc tail, n < fuel →
      scanDigits (decimalDigits fuel n ++ tail) acc =
        scanDigits tail (acc * 10 ^ (decimalDigits fuel n).length + n) := by
  induction fuel with
  | zero => intro n acc tail h; omega
  | succ fuel ih =>
    intro n acc tail hn
    by_cases h10 : n < 10
    · have hd := isdigit_digit n h10
      simp only [decimalDigits, h10, if_true, List.singleton_append, scanDigits, hd,
        List.length_singleton, pow_one]
      congr 1
      omega
    · simp only [decimalDigits, h10, if_false, List.append_assoc, List.singleton_append,
        List.length_append, List.length_singleton]
      rw [ih (n / 10) acc _ (by omega)]
      have hd := isdigit_digit (n % 10) (by omega)
      simp only [scanDigits, hd, if_true]
      congr 1
      rw [pow_succ]
      have := Nat.div_add_mod n 10
      generalize 10 ^ (decimalDigits fuel (n / 10)).length = p
      have e : 10 * (acc * p + n / 10) = acc * p * 10 + 10 * (n / 10) := by ring
      rw [Nat.add_sub_cancel_left, e, ← Nat.mul_assoc]
      omega

theorem scanInt_decimal (n c : Nat) (rest : List Nat) (hc : isdigit c = false) :
    scanInt (decimal n ++ c :: rest) = (some (n : Int), c :: rest) := by
  obtain ⟨d, ds, hd, hdig⟩ := decimalDigits_head n n
  have hsp := isspace_of_isdigit d hdig
  have hsign : ¬ (d = 45 ∨ d = 43) := by
    simp only [isdigit, Bool.and_eq_true, decide_eq_true_eq] at hdig
    omega
  have hscan := scanDigits_decimalDigits (n + 1) n 0 (c :: rest) (by omega)
  simp only [Nat.zero_mul, Nat.zero_add, scanDigits, hc, Bool.false_eq_true, if_false] at hscan
  unfold decimal at *
  rw [hd] at hscan ⊢
  simp only [List.cons_append] at hscan
  simp only [scanInt, List.cons_append, skipSpace, hsp, Bool.false_eq_true, if_false, hsign,
    hdig, if_true, List.append_eq, hscan]

theorem skipSpace_decimal (n : Nat) (rest : List Nat) :
    skipSpace (decimal n ++ rest) = decimal n ++ rest := by
  obtain ⟨d, ds, hd, hdig⟩ := decimalDigits_head n n
  have hsp := isspace_of_isdigit d hdig
  unfold decimal
  rw [hd]
  simp only [List.cons_append, skipSpace, hsp, Bool.false_eq_true, if_false, List.append_eq]

theorem skipSpace_length_le (xs : List Nat) : (skipSpace xs).length ≤ xs.length := by
  induction xs with
  | nil => simp [skipSpace]
  | cons c cs ih =>
    simp only [skipSpace]
    split
    · simp only [List.length_cons]; omega
    · exact Nat.le_refl _

/-- The header that `writeImage` emits is scanned back field by field; the
scan stops only after the white space that follows it. -/
theorem scanHeader_written (w h : Nat) (data : List Nat) :
    scanHeader (FORMAT ++ [10] ++ decimal w ++ [32] ++ decimal h ++ [10] ++
        decimal MAX_COLOR ++ [10] ++ data) =
      { headerMatches := 4, format := FORMAT, width := w, height := h,
        maxIntensity := MAX_COLOR, rest := skipSpace data } := by
  have h1 : scanString (FORMAT ++ [10] ++ decimal w ++ [32] ++ decimal h ++ [10] ++
      decimal MAX_COLOR ++ [10] ++ data) =
      (some FORMAT, 10 :: (decimal w ++ 32 :: (decimal h ++ 10 :: (decimal MAX_COLOR ++
        10 :: data)))) := by
    simp [scanString, FORMAT, skipSpace, isspace, List.takeWhile, List.dropWhile]
  have hsp10 : ∀ xs, skipSpace (10 :: xs) = skipSpace xs := by
    intro xs; simp [skipSpace, isspace]
  have hsp32 : ∀ xs, skipSpace (32 :: xs) = skipSpace xs := by
    intro xs; simp [skipSpace, isspace]
  have hd10 : isdigit 10 = false := by decide
  have hd32 : isdigit 32 = false := by decide
  simp only [scanHeader, h1, hsp10, hsp32, skipSpace_decimal, scanInt_decimal _ _ _ hd10,
    scanInt_decimal _ _ _ hd32]

/-- Reading back what `writeImage` wrote: `readImage` returns the image unless
the first channel byte is a white-space byte, in which case the scan of the
header reads it and the file is reported invalid. -/
theorem readImage_writeImage (image : Image) (hrows : 1 ≤ image.rows) (hcols : 1 ≤ image.cols)
    (hlen : image.color.length = image.rows * image.cols * PIXEL_WIDTH) :
    ∃ bytes, writeImage image true = .ret bytes ∧
      readImage (some bytes) =
        if isspace (image.color.getD 0 0) then .exit 1 .invalidImage else .ret image := by
  have hpos : 0 < image.rows * image.cols := Nat.mul_pos (by omega) (by omega)
  have hn : image.cols * image.rows * PIXEL_WIDTH = image.color.length := by
    rw [hlen, Nat.mul_comm image.cols]
  refine ⟨FORMAT ++ [10] ++ decimal image.cols ++ [32] ++ decimal image.rows ++ [10] ++
    decimal MAX_COLOR ++ [10] ++ image.color, ?_, ?_⟩
  · unfold writeImage
    simp only [Bool.not_true, Bool.false_eq_true, if_false, hn, Nat.lt_irrefl, List.take_length]
  · generalize hH : FORMAT ++ [10] ++ decimal image.cols ++ [32] ++ decimal image.rows ++ [10] ++
      decimal MAX_COLOR ++ [10] = header
    have hscan := scanHeader_written image.cols image.rows image.color
    rw [hH] at hscan
    have hsk := skipSpace_length_le image.color
    have hexp : ((image.cols : Int) * (image.rows : Int) * (PIXEL_WIDTH : Int)) =
        ((image.color.length : Nat) : Int) := by
      rw [← hn]; push_cast; ring
    have hfmt : ¬ (FORMAT.length > FORMATLEN) := by decide
    have hcs : cString FORMAT = FORMAT := by decide
    unfold readImage
    simp only [hscan, hfmt, if_false, hexp, List.length_append]
    obtain ⟨c, cs, hc⟩ : ∃ c cs, image.color = c :: cs := by
      cases hcol : image.color with
      | nil =>
        rw [hcol] at hlen
        simp only [List.length_nil, PIXEL_WIDTH] at hlen
        omega
      | cons c cs => exact ⟨c, cs, rfl⟩
    by_cases hspace : isspace (image.color.getD 0 0) = true
    · rw [if_pos hspace]
      have hlt : (skipSpace image.color).length < image.color.length := by
        rw [hc] at hspace ⊢
        simp only [List.getD_cons_zero] at hspace
        simp only [skipSpace, hspace, if_true, List.length_cons]
        have := skipSpace_length_le cs
        omega
      rw [if_pos]
      right; right; right; right; right
      omega
    · rw [if_neg hspace]
      have hsame : skipSpace image.color = image.color := by
        rw [hc] at hspace ⊢
        simp only [List.getD_cons_zero] at hspace
        simp only [skipSpace, hspace, Bool.false_eq_true, if_false]
      rw [hsame]
      rw [if_neg]
      · have hdrop : header.length + image.color.length - image.color.length = header.length := by
          omega
        simp only [hdrop, List.drop_left, Int.toNat_ofNat, List.take_length]
      · simp only [not_or, not_not, not_lt, HEADERARGS]
        refine ⟨by norm_num, hcs, by omega, by omega, by simp [MAX_COLOR], by omega⟩


/-! ## Inputs on which the claims as stated fail -/

/-- C6 as stated fails when the message holds a zero byte: for the three
bytes `41 00 42` and a 1x1 image at `numBits = 8` (24 bits, the capacity),
`insertMessage` stops at the zero byte, writes the byte `41` and pads with
zeros, so carrier bit 17 is 0 where bit 1 of message byte 2 is 1. -/
theorem layout_stops_at_zero_byte :
    8 * [0x41, 0x00, 0x42].length ≤ 1 * 1 * PIXEL_WIDTH * 8 ∧
    insertMessage [0x41, 0x00, 0x42] { rows := 1, cols := 1, color := [255, 255, 255] } 8
        (1 * 1 * PIXEL_WIDTH * 8) = some { rows := 1, cols := 1, color := [0x41, 0, 0] } ∧
    17 < 8 * [0x41, 0x00, 0x42].length ∧
    getBit ([0x41, 0, 0].getD (17 / 8) 0) (17 % 8) ≠
      getBit ([0x41, 0x00, 0x42].getD (17 / 8) 0) (17 % 8) := by
  decide

/-- A 9500x9500 buffer that starts with the byte 255 followed by a zero byte:
group 0 is 255, group 1 is the first all-zero group, and `extractMessage` at
`numBits = 8` returns the empty string, the `int` product for `bitsMax` being
negative. -/
theorem extractMessage_of_large_buffer (rest : List Nat) (hlen : rest.length = 270749999)
    (hzero : rest.getD 0 0 = 0) :
    (255 :: rest).length = 9500 * 9500 * PIXEL_WIDTH ∧
    carrierGroup (255 :: rest) 8 0 = 255 ∧
    carrierGroup (255 :: rest) 8 1 = 0 ∧
    ∀ fuel, extractMessage fuel { rows := 9500, cols := 9500, color := 255 :: rest } 8 =
      .done [0] := by
  refine ⟨?_, ?_, ?_, ?_⟩
  · rw [List.length_cons, hlen]
    norm_num [PIXEL_WIDTH]
  · have h : ∀ i, i < 8 → carrierBit (255 :: rest) 8 (8 * 0 + i) = true := by
      intro i hi
      unfold carrierBit
      rw [show (8 * 0 + i) / 8 = 0 by omega, show (8 * 0 + i) % 8 = i by omega,
        List.getD_cons_zero]
      interval_cases i <;> decide
    apply byte_ext _ _ (carrierGroup_lt _ _ _) (by norm_num)
    intro m hm
    rw [getBit_carrierGroup _ _ _ _ hm, h m hm]
    interval_cases m <;> decide
  · have h : ∀ i, i < 8 → carrierBit (255 :: rest) 8 (8 * 1 + i) = false := by
      intro i hi
      unfold carrierBit
      rw [show (8 * 1 + i) / 8 = 1 by omega, show (8 * 1 + i) % 8 = i by omega,
        List.getD_cons_succ, hzero]
      interval_cases i <;> decide
    apply byte_ext _ _ (carrierGroup_lt _ _ _) (by norm_num)
    intro m hm
    rw [getBit_carrierGroup _ _ _ _ hm, h m hm]
    interval_cases m <;> decide
  · intro fuel
    apply extractMessage_of_bitsMax_nonpos
    show wrapInt (((9500 : Nat) : Int) * ((9500 : Nat) : Int) * (PIXEL_WIDTH : Int) *
      ((8 : Nat) : Int)) ≤ 0
    decide

/-- C8 as stated fails at a 9500x9500 image at `numBits = 8`, whose capacity
2166000000 is beyond the largest `int`: with first channel byte 255 and
zeros after it the first all-zero group is group 1, wholly within capacity,
but `extractMessage` returns the empty string, not the byte 255. -/
theorem extraction_fails_beyond_int_capacity :
    (255 :: List.replicate 270749999 0).length = 9500 * 9500 * PIXEL_WIDTH ∧
    9500 * 9500 * PIXEL_WIDTH * 8 = 2166000000 ∧
    8 * (1 + 1) ≤ 2166000000 ∧
    carrierGroup (255 :: List.replicate 270749999 0) 8 0 = 255 ∧
    carrierGroup (255 :: List.replicate 270749999 0) 8 1 = 0 ∧
    (∀ fuel, extractMessage fuel
      { rows := 9500, cols := 9500, color := 255 :: List.replicate 270749999 0 } 8 =
        .done [0]) ∧
    cString [0] ≠ [255] :=
  have h := extractMessage_of_large_buffer (List.replicate 270749999 0)
    (List.length_replicate _ _)
    (by rw [List.getD_eq_getElem?_getD, List.getElem?_replicate]; simp)
  ⟨h.1, by decide, by decide, h.2.1, h.2.2.1, h.2.2.2, by decide⟩

/-- `insertMessage` succeeds, and keeps the dimensions, whenever the message
bits and the message space both fit the carrier bits of the buffer. -/
theorem insertMessage_succeeds (message : List Nat) (image : Image) (numBits messageSpace : Nat)
    (h1 : 1 ≤ numBits) (h8 : numBits ≤ 8)
    (hmsg : 8 * strlen message ≤ image.color.length * numBits)
    (hcap : messageSpace ≤ image.color.length * numBits) :
    ∃ image', insertMessage message image numBits messageSpace = some image' ∧
      image'.rows = image.rows ∧ image'.cols = image.cols := by
  obtain ⟨s', hs', _⟩ := storeBits_spec numBits h1 h8
    ((List.range' 0 (8 * strlen message)).map (messageBit message) ++
      List.replicate (messageSpace - 8 * strlen message) false) 0
    { color := image.color, pixelColor := 0, pixelBit := 0, bitsFilled := 0 }
    ⟨by simp, by simp⟩
    (by
      simp only [List.length_append, List.length_map, List.length_range',
        List.length_replicate]
      omega)
  exact ⟨{ image with color := s'.color }, by rw [insertMessage_eq, hs']; rfl, rfl, rfl⟩

/-- Embedding "A" into a 9500x9500 image at `numBits = 8` succeeds for every
message space up to the capacity, and extraction from the result returns the
empty string: the `int` product for `bitsMax` is negative. -/
theorem extract_after_insert_of_large_buffer (buffer : List Nat)
    (hlen : buffer.length = 270750000) (messageSpace : Nat)
    (hspace : messageSpace ≤ 2166000000) :
    ∃ image', insertMessage [0x41] { rows := 9500, cols := 9500, color := buffer } 8
        messageSpace = some image' ∧
      ∀ fuel, extractMessage fuel image' 8 = .done [0] := by
  have hone : strlen [0x41] = 1 := by decide
  obtain ⟨image', hins, hrows, hcols⟩ := insertMessage_succeeds [0x41]
    { rows := 9500, cols := 9500, color := buffer } 8 messageSpace (by omega) (by omega)
    (by
      show 8 * strlen [0x41] ≤ buffer.length * 8
      rw [hlen, hone]
      omega)
    (by
      show messageSpace ≤ buffer.length * 8
      rw [hlen]
      omega)
  refine ⟨image', hins, ?_⟩
  intro fuel
  apply extractMessage_of_bitsMax_nonpos
  rw [hrows, hcols]
  show wrapInt (((9500 : Nat) : Int) * ((9500 : Nat) : Int) * (PIXEL_WIDTH : Int) *
    ((8 : Nat) : Int)) ≤ 0
  decide

/-- C18 as stated fails at a 9500x9500 image at `numBits = 8`, whose capacity
2166000000 is beyond the largest `int`: the message "A" has no zero byte and
leaves room for a terminator, `insertMessage` embeds it for every message
space up to the capacity, but `extractMessage` on the result returns the
empty string, not "A". -/
theorem roundtrip_fails_beyond_int_capacity :
    (List.replicate 270750000 0).length = 9500 * 9500 * PIXEL_WIDTH ∧
    9500 * 9500 * PIXEL_WIDTH * 8 = 2166000000 ∧
    0 ∉ [0x41] ∧
    8 * ([0x41].length + 1) ≤ 2166000000 ∧
    (∀ messageSpace, messageSpace ≤ 2166000000 →
      ∃ image', insertMessage [0x41]
          { rows := 9500, cols := 9500, color := List.replicate 270750000 0 } 8 messageSpace =
          some image' ∧
        ∀ fuel, extractMessage fuel image' 8 = .done [0]) ∧
    cString [0] ≠ [0x41] :=
  ⟨by rw [List.length_replicate]; decide, by decide, by decide, by decide,
    fun messageSpace hspace =>
      extract_after_insert_of_large_buffer _ (List.length_replicate _ _) messageSpace hspace,
    by decide⟩


/-- For a 16384x32768 image at `bits = 8` the `int` product for
`messageSpace` is `3 * 2^32`, which wraps to 0: `main` reports too few pixels
for the one-byte message "A". -/
theorem main_of_wrapped_capacity (buffer : List Nat) (hlen : buffer.length = 1610612736)
    (hfirst : buffer.getD 0 0 = 0) :
    ∃ bytes, writeImage { rows := 16384, cols := 32768, color := buffer } true = .ret bytes ∧
      readImage (some bytes) = .ret { rows := 16384, cols := 32768, color := buffer } ∧
      Conceal.main 5 8 (some bytes) (some [0x41]) true =
        some { status := 1, report := some .tooFewPixels, calls := [.readImage, .readMessage],
               image := some { rows := 16384, cols := 32768, color := buffer },
               output := none } := by
  obtain ⟨bytes, hwrite, hread⟩ := readImage_writeImage
    { rows := 16384, cols := 32768, color := buffer }
    (by show 1 ≤ 16384; decide) (by show 1 ≤ 32768; decide)
    (by
      show buffer.length = 16384 * 32768 * PIXEL_WIDTH
      rw [hlen]
      decide)
  have hspace : isspace (({ rows := 16384, cols := 32768, color := buffer } : Image).color.getD
      0 0) = false := by
    show isspace (buffer.getD 0 0) = false
    rw [hfirst]
    decide
  rw [hspace] at hread
  simp only [Bool.false_eq_true, if_false] at hread
  refine ⟨bytes, hwrite, hread, ?_⟩
  have hargs : ¬ (5 : Nat) ≠ Conceal.NUMARGS := by decide
  have hbits : ¬ ((8 : Int) < Conceal.MINBITS ∨ (8 : Int) > Conceal.MAXBITS) := by decide
  have hwrap : wrapInt (((16384 : Nat) : Int) * ((32768 : Nat) : Int) * (PIXEL_WIDTH : Int) *
      (8 : Int)) = 0 := by decide
  have hone : strlen [0x41] = 1 := by decide
  simp only [Conceal.main, hargs, hbits, if_false, hread, readMessage, hwrap, hone,
    BITS_PER_BYTE]
  rw [if_pos (by decide)]

/-- C13 as stated fails in three ways.  With a zero byte in the message file
(`41 00 42 43 44`, 40 bits, on a 3x1 image with 9 carrier bits at `bits = 1`)
`main` embeds the first byte and ends with status 0 although
`8*len(message) > rows*cols*3*bits`.  With an output file that cannot be
opened it ends with status 1 after calling `insertMessage` although the
message fits.  With a 16384x32768 image at `bits = 8` the `int` product for
the capacity wraps to 0 and `main` ends with status 1 without calling
`insertMessage` although the one-byte message fits. -/
theorem main_capacity_claim_fails :
    (readImage (some ([80, 54, 10, 51, 32, 49, 10, 50, 53, 53, 10] ++
        [255, 254, 7, 8, 100, 3, 2, 1, 255])) =
        .ret { rows := 1, cols := 3, color := [255, 254, 7, 8, 100, 3, 2, 1, 255] } ∧
      8 * [0x41, 0x00, 0x42, 0x43, 0x44].length > 1 * 3 * PIXEL_WIDTH * 1 ∧
      Conceal.main 5 1 (some ([80, 54, 10, 51, 32, 49, 10, 50, 53, 53, 10] ++
          [255, 254, 7, 8, 100, 3, 2, 1, 255])) (some [0x41, 0x00, 0x42, 0x43, 0x44]) true =
        some { status := 0, report := none,
               calls := [.readImage, .readMessage, .insertMessage, .writeImage],
               image := some { rows := 1, cols := 3, color := [255, 254, 6, 8, 100, 2, 3, 0, 254] },
               output := some ([80, 54, 10, 51, 32, 49, 10, 50, 53, 53, 10] ++
                 [255, 254, 6, 8, 100, 2, 3, 0, 254]) }) ∧
    (¬ 8 * [0x41].length > 1 * 3 * PIXEL_WIDTH * 1 ∧
      Conceal.main 5 1 (some ([80, 54, 10, 51, 32, 49, 10, 50, 53, 53, 10] ++
          [255, 254, 7, 8, 100, 3, 2, 1, 255])) (some [0x41]) false =
        some { status := 1, report := some .cannotOpen,
               calls := [.readImage, .readMessage, .insertMessage, .writeImage],
               image := some { rows := 1, cols := 3, color := [255, 254, 6, 8, 100, 2, 3, 0, 254] },
               output := none }) ∧
    (¬ 8 * [0x41].length > 16384 * 32768 * PIXEL_WIDTH * 8 ∧
      ∃ bytes,
        writeImage { rows := 16384, cols := 32768, color := List.replicate 1610612736 0 } true =
          .ret bytes ∧
        readImage (some bytes) =
          .ret { rows := 16384, cols := 32768, color := List.replicate 1610612736 0 } ∧
        Conceal.main 5 8 (some bytes) (some [0x41]) true =
          some { status := 1, report := some .tooFewPixels,
                 calls := [.readImage, .readMessage],
                 image := some { rows := 16384, cols := 32768,
                                 color := List.replicate 1610612736 0 },
                 output := none }) :=
  ⟨by decide, by decide,
    ⟨by decide,
      main_of_wrapped_capacity _ (List.length_replicate _ _)
        (by rw [List.getD_eq_getElem?_getD, List.getElem?_replicate]; simp)⟩⟩

end MessageConcealer
